import Mathlib

/-!
# Verification of the panux/builder build engine against its specification

This file contains a shallow embedding, in Lean 4, of the parts of the
panux/builder Go sources that the specification's claims are about, together
with theorems settling each claim.

Conventions used throughout:
* Go byte slices are modelled as `List Nat`.
* Go strings are Lean `String`s; the few string-manipulation functions from
  the Go standard library that the code uses (`strings.Split`,
  `filepath.Base`, `filepath.Dir`, `filepath.Clean`, `filepath.Join`) are
  re-implemented here over `String.data` following their documented
  semantics on the well-formed inputs that arise in this code base.
* Go functions that can fail return `Except` / `Option`; Go multiple return
  values `(v, err)` become pairs or `Except`.
* Cryptographic and serialisation primitives (SHA-256, JSON encoding, RSA)
  are kept abstract: the claims under study are about the *structure* of the
  data fed to them, never about the primitives themselves.  Theorems either
  quantify over the primitive (with the properties that are actually used
  stated as hypotheses) or are evaluated at an explicit simple instance.
* General recursion (the dependency walker, the reader loop) is embedded
  with an explicit fuel parameter; `none` marks fuel exhaustion, and fuel
  sufficiency is proved where the Go code terminates.
-/

/-! ## Go string helpers

`goSplitChar` is `strings.Split(s, sep)` for a one-character separator,
defined over the character list of the string.  `Split("", sep) = [""]` and
separators at the ends produce empty fields, exactly as in Go. -/

/-- Character-list version of Go `strings.Split` with a one-character
separator. -/
def splitCharList (c : Char) : List Char → List (List Char)
  | [] => [[]]
  | x :: xs =>
    let r := splitCharList c xs
    if x = c then [] :: r
    else
      match r with
      | [] => [[x]]
      | h :: t => (x :: h) :: t

/-- Go `strings.Split(s, c)` for a single-character separator `c`. -/
def goSplit (s : String) (c : Char) : List String :=
  (splitCharList c s.data).map (fun l => ⟨l⟩)

/-- Go `strings.HasSuffix`. -/
def goHasSuffix (s suffix : String) : Bool :=
  suffix.data.isSuffixOf s.data

/-- Go `strings.TrimSuffix`. -/
def goTrimSuffix (s suffix : String) : String :=
  if goHasSuffix s suffix then ⟨s.data.take (s.data.length - suffix.data.length)⟩ else s

/-- Join a list of character-list components with `/`. -/
def joinComps : List (List Char) → List Char
  | [] => []
  | [c] => c
  | c :: cs => c ++ '/' :: joinComps cs

/-- Component-level core of Go `filepath.Clean`: drops empty and `.`
components and resolves `..` against preceding components.  (The Go
function's special treatment of rooted paths that climb above the root is
not needed for the relative recipe paths that occur here.) -/
def cleanComps (comps : List (List Char)) : List (List Char) :=
  comps.foldl
    (fun acc c =>
      if c = [] ∨ c = ['.'] then acc
      else if c = ['.', '.'] then
        match acc.getLast? with
        | some l => if l = ['.', '.'] then acc ++ [c] else acc.dropLast
        | none => [c]
      else acc ++ [c])
    []

/-- Go `filepath.Clean` (restricted to the path shapes used by the recipe
tree: relative or absolute slash-separated paths). -/
def pathClean (p : String) : String :=
  if p = "" then "." else
  let comps := cleanComps (splitCharList '/' p.data)
  let body := joinComps comps
  if p.data.head? = some '/' then ⟨'/' :: body⟩
  else if body = [] then "." else ⟨body⟩

/-- Go `filepath.Join` of two elements: join with a slash, then clean. -/
def pathJoin (a b : String) : String :=
  pathClean (a ++ "/" ++ b)

/-- Go `filepath.Dir`: everything before the final slash (cleaned).  On the
well-formed `dir/file` paths stored in the recipe index this is the list of
components without the last one. -/
def pathDir (p : String) : String :=
  let comps := splitCharList '/' p.data
  let initComps := comps.dropLast
  if initComps = [] then "." else pathClean ⟨joinComps initComps⟩

/-- Go `filepath.Base`: the last path component. -/
def pathBase (p : String) : String :=
  if p = "" then "." else
  match (splitCharList '/' p.data).getLast? with
  | some [] => "/"
  | some c => ⟨c⟩
  | none => "."

/-! ## Core data model (`pkgen` package)

`RawPackageGenerator` is the raw recipe after YAML unmarshalling
(`pkgen/info.go`), `PackageGenerator` the preprocessed recipe
(`pkgen/generator.go`).  A Go `nil` slice is distinguished from an empty
one where the code checks for `nil` (`Package.Dependencies`), hence the
`Option (List String)`.  The user-data field `Data` is never read by the
functions under study and is omitted.  The architecture type `pkgen.Arch`
is a string type and is modelled as `String`. -/

/-- A package entry of a pkgen (`pkgen.Package`).  `dependencies = none`
models a Go `nil` slice. -/
structure GoPackage where
  dependencies : Option (List String)
deriving DecidableEq, Repr

/-- Parsed URL, restricted to the fields the build engine reads
(`u.Scheme` and `u.Path`). -/
structure URL where
  scheme : String
  path : String
deriving DecidableEq, Repr

/-- `pkgen.RawPackageGenerator`: the raw recipe. -/
structure RawPackageGenerator where
  packages : List (String × GoPackage)
  arch : List String
  version : String
  build : Nat
  sources : List String
  script : List String
  buildDependencies : List String
  builder : String
  cross : Bool
  noBootstrap : List String
deriving DecidableEq, Repr

/-- `pkgen.PackageGenerator`: the preprocessed recipe.

The `noBootstrap` field is *Modelled from the spec:* the draft of
`PackageGenerator` present under `src/` lacks it, while
`buildmanager/builder.go` reads `bj.pk.NoBootstrap`; §4.2(d) of the
specification says the preprocessor carries the bootstrap-override map
forward verbatim, which is how `preprocess` below fills it. -/
structure PackageGenerator where
  packages : List (String × List String)
  arch : List String
  hostArch : String
  buildArch : String
  version : String
  sources : List URL
  script : List String
  buildDependencies : List String
  builder : String
  cross : Bool
  noBootstrap : List String
deriving DecidableEq, Repr

/-- `pkgen.Builder.IsBootstrap` (from the `Builder` string type). -/
def builderIsBootstrap (b : String) : Bool :=
  b = "bootstrap"

/-! ## Preprocessor (`pkgen/generator.go`, `Preprocess`)

The text templater `tmpl` and `url.Parse` are kept abstract (they read the
recipe but never write it); `preprocess` mirrors the control flow of the Go
function, including the two assignments `rpg.Builder = "default"` that
write through the receiver pointer.  Since Go passes `rpg` by pointer, the
function returns the posterior state of the raw recipe next to its result. -/

/-- `strings.Join(l, "\n")`. -/
def joinLines (l : List String) : String :=
  String.intercalate "\n" l

/-- `strings.Split(s, "\n")`. -/
def splitLines (s : String) : List String :=
  goSplit s '\n'

/-- `RawPackageGenerator.Preprocess` from `pkgen/generator.go` (the
three-argument draft).  `tmplF name input` abstracts `rpg.tmpl`; `parseURL`
abstracts `url.Parse`.  The second component of the result is the state of
the pointed-to raw recipe after the call. -/
def preprocess (tmplF : String → String → Except String String)
    (parseURL : String → Except String URL)
    (rpg : RawPackageGenerator) (hostarch buildarch : String) (bootstrap : Bool) :
    Except String PackageGenerator × RawPackageGenerator :=
  -- pg.Packages: nil dependency slices are replaced by empty ones on a copy
  let pkgs := rpg.packages.map (fun np => (np.1, np.2.dependencies.getD []))
  -- pg.Version = fmt.Sprintf("%s-%d", rpg.Version, rpg.Build)
  let version := rpg.version ++ "-" ++ toString rpg.build
  -- source templating and URL parsing
  match (rpg.sources.enum.mapM (fun iv => do
      let vpp ← tmplF ("src-" ++ toString iv.1) iv.2
      parseURL vpp)) with
  | .error e => (.error e, rpg)
  | .ok srcs =>
    match tmplF "script" (joinLines rpg.script) with
    | .error e => (.error e, rpg)
    | .ok script =>
      let scriptLines := splitLines script
      -- builder switch: note the writes through the receiver pointer
      let bres : Except String RawPackageGenerator :=
        if rpg.builder = "" then .ok rpg
        else if rpg.builder = "bootstrap" then
          .ok (if bootstrap then rpg else { rpg with builder := "default" })
        else if rpg.builder = "docker" then .ok rpg
        else if rpg.builder = "default" then .ok rpg
        else if rpg.builder = "panux" then .ok { rpg with builder := "default" }
        else .error ("pkgen: invalid builder " ++ rpg.builder)
      match bres with
      | .error e => (.error e, rpg)
      | .ok rpg1 =>
        (.ok { packages := pkgs
               arch := rpg1.arch
               hostArch := hostarch
               buildArch := buildarch
               version := version
               sources := srcs
               script := scriptLines
               buildDependencies := rpg1.buildDependencies
               builder := if rpg1.builder = "" then "default" else rpg1.builder
               cross := rpg1.cross
               noBootstrap := rpg1.noBootstrap },
         rpg1)

/-- Concrete templater used in evaluations: templates that contain no
directives expand to themselves. -/
def tmplId : String → String → Except String String :=
  fun _ s => .ok s

/-- Concrete URL parser used in evaluations: `scheme://` followed by path,
or an opaque path with empty scheme. -/
def parseURLSimple (s : String) : Except String URL :=
  match goSplit s ':' with
  | [sch, rest] => .ok ⟨sch, goTrimSuffix rest ""⟩
  | _ => .ok ⟨"", s⟩

/-- The concrete raw recipe used as C5's failing input: a recipe whose
builder is `bootstrap`, preprocessed with `bootstrap = false`. -/
def c5Recipe : RawPackageGenerator :=
  { packages := [("foo", ⟨some []⟩)]
    arch := ["x86_64"]
    version := "1.0"
    build := 2
    sources := []
    script := ["make"]
    buildDependencies := []
    builder := "bootstrap"
    cross := false
    noBootstrap := [] }

/-- **C5** (code bug).  The specification states that preprocessing is pure
and side-effect free, leaving every field of the input raw recipe unchanged
— in particular its `Builder` field.  The code instead executes
`rpg.Builder = "default"` through the receiver pointer when a recipe whose
builder is `bootstrap` is preprocessed with `bootstrap = false` (and also
when the legacy alias `panux` is folded): at the failing input `c5Recipe`
the raw recipe's builder is `"bootstrap"` before the call and `"default"`
after it, while the call succeeds and yields a BuildSpec with builder
`"default"`. -/
theorem preprocess_mutates_input_builder :
    c5Recipe.builder = "bootstrap" ∧
    (preprocess tmplId parseURLSimple c5Recipe "x86_64" "x86_64" false).2.builder
      = "default" ∧
    ((preprocess tmplId parseURLSimple c5Recipe "x86_64" "x86_64" false).1.map
      PackageGenerator.builder) = .ok "default" := by
  refine ⟨rfl, ?_, ?_⟩ <;> rfl

/-! ## Build job run tail (`buildmanager/builder.go`, `buildJob.Run`)

`Run` is a chain of effectful steps, each of the shape
`v, err := step(); if err != nil { return err }`, followed by the worker
build, the build-cache update, and a deferred log close.  The embedding
threads the outcome of each step through an environment record, mirroring
the Go control flow exactly; `none` is a `nil` error. -/

/-- Outcomes of the effectful sub-calls of one execution of
`buildJob.Run`, each `none` meaning the Go call returned a `nil` error. -/
structure RunEnv where
  buildInfoErr : Option String
  loaderErr : Option String
  pkgDepsErr : Option String
  bjrErr : Option String
  logOpenErr : Option String
  clientBuildErr : Option String
  logCloseErr : Option String
  updateCacheErr : Option String
deriving DecidableEq, Repr

/-- The deferred `log.Close()` handler of `buildJob.Run`:
`cerr := log.Close(); if cerr != nil && err != nil { err = cerr }`. -/
def withLogClose (closeErr : Option String) (r : Option String) : Option String :=
  match r, closeErr with
  | some _, some ce => some ce
  | r, _ => r

/-- `buildJob.Run` from `buildmanager/builder.go`: the returned value is the
final error of the job (`none` = success).  Each Go guard
`if err != nil { return err }` makes the first failing step's error the
result; `buildInfo()` is called twice in the source with the same outcome,
so its field appears once.  The deferred log close is installed only once
`LogProvider.Log` has succeeded. -/
def runJob (env : RunEnv) : Option String :=
  match env.buildInfoErr, env.loaderErr, env.pkgDepsErr, env.bjrErr, env.logOpenErr with
  | some e, _, _, _, _ => some e
  | none, some e, _, _, _ => some e
  | none, none, some e, _, _ => some e
  | none, none, none, some e, _ => some e
  | none, none, none, none, some e => some e
  | none, none, none, none, none =>
    withLogClose env.logCloseErr
      (match env.clientBuildErr with
       | some e =>
         if e = "failed" then
           match env.updateCacheErr with
           | some ce => some ce
           | none => some e
         else some e
       | none =>
         match env.updateCacheErr with
         | some ce => some ce
         | none => none)

/-- C9's concrete run: every step succeeds, the worker session terminates
successfully and the outputs are stored, and then the build-cache update
fails with "disk full". -/
def c9Env : RunEnv :=
  { buildInfoErr := none, loaderErr := none, pkgDepsErr := none,
    bjrErr := none, logOpenErr := none, clientBuildErr := none,
    logCloseErr := none, updateCacheErr := some "disk full" }

/-- **C9 counterexample** (claim corrected).  The claim states that after a
successful worker session whose outputs are stored, a failing build-cache
update does not fail the job: `Run` still reports success and the error is
only logged.  At the concrete input `c9Env` (successful build, cache write
failing with "disk full") the code returns the cache error from `Run` —
`cerr := UpdateCache(...); if cerr != nil { return cerr }` — so the job
fails; nothing is logged. -/
theorem runJob_cache_error_fails_job :
    runJob c9Env = some "disk full" ∧ ((runJob c9Env == none) = false) := by
  exact ⟨rfl, rfl⟩

/-- **C9 amended**.  A failure of the build-cache update after a successful,
stored build causes `Run` to return an error (the job fails): the cache
error itself, or the log-close error if the deferred `log.Close` also
fails.  The cache-write error is returned, not merely logged. -/
theorem runJob_cache_error_returned (env : RunEnv) (e : String)
    (h1 : env.buildInfoErr = none) (h2 : env.loaderErr = none)
    (h3 : env.pkgDepsErr = none) (h4 : env.bjrErr = none)
    (h5 : env.logOpenErr = none) (h6 : env.clientBuildErr = none)
    (h7 : env.updateCacheErr = some e) :
    runJob env = some (env.logCloseErr.getD e) := by
  unfold runJob withLogClose
  rw [h1, h2, h3, h4, h5, h6, h7]
  cases h : env.logCloseErr <;> simp [Option.getD]

/-- Witness for `runJob_cache_error_returned` at `c9Env`. -/
theorem runJob_cache_error_returned_witness :
    runJob c9Env = some ((c9Env.logCloseErr).getD "disk full") :=
  runJob_cache_error_returned c9Env "disk full" rfl rfl rfl rfl rfl rfl rfl

/-! ## HTTP loader buffering (`pkgen/httploader.go`, `maxReader.Read`)

The code reads

```
func (mr *maxReader) Read(dat []byte) (int, error) {
    n, err := mr.Read(dat)        // calls itself, not mr.r.Read
    ...
}
```

so `Read` recurses into itself without ever consulting the wrapped reader
`mr.r`.  The embedding gives the recursion an explicit fuel; `none` means
that the computation has not produced a result within `fuel` nested calls.
A theorem below shows the result is `none` for *every* fuel: no finite
number of execution steps makes `Read` return, which is the divergence
(in a real run, a stack overflow). -/

/-- `maxReader`: remaining budget `n` and the wrapped reader `r`
(abstracted to an opaque state that, as the theorem shows, is never
consulted). -/
structure MaxReader where
  n : Nat
  r : Nat
deriving DecidableEq, Repr

/-- Errors of the buffering path. -/
inductive ReadErr where
  | exceedsMaxBuffer
  | ioErr (s : String)
deriving DecidableEq, Repr

/-- `maxReader.Read` from `pkgen/httploader.go`, fuel-indexed.  The first
action is the recursive call `mr.Read(dat)` on the receiver itself. -/
def maxReaderRead : Nat → MaxReader → Nat → Option (Nat × Option ReadErr × MaxReader)
  | 0, _, _ => none
  | fuel + 1, mr, datLen =>
    match maxReaderRead fuel mr datLen with
    | none => none
    | some (n, err, mr1) =>
      if mr1.n < n then some (n, some .exceedsMaxBuffer, mr1)
      else some (n, err, { mr1 with n := mr1.n - n })

/-- The buffering loop of `httpLoader.Get` (`io.Copy(buf, mrt)`) reads
repeatedly from the `maxReader` until EOF or error; its first action is one
`maxReaderRead`. -/
def ioCopyMax : Nat → MaxReader → Nat → Option (List Nat)
  | 0, _, _ => none
  | fuel + 1, mr, datLen =>
    match maxReaderRead (fuel + 1) mr datLen with
    | none => none
    | some (_, some _, _) => some []
    | some (_, none, mr1) => ioCopyMax fuel mr1 datLen

/-- **C10** (code bug).  The claim says that for an integrity-checked HTTP
source the buffering loop's `maxReader.Read` reads from the wrapped
underlying reader, consumes at most `maxbuf` bytes, and `Get` returns
either the verified body or an error.  In the code, `maxReader.Read` begins
with `n, err := mr.Read(dat)` — a recursive call on the receiver instead of
`mr.r.Read(dat)` — so no finite number of execution steps produces a result
(the wrapped reader is never consulted, and `io.Copy`'s first read, hence
`Get`, never returns): both the read and the buffering loop evaluate to
`none` at every fuel. -/
theorem maxReaderRead_diverges (fuel : Nat) (mr : MaxReader) (datLen : Nat) :
    maxReaderRead fuel mr datLen = none ∧ ioCopyMax fuel mr datLen = none := by
  induction fuel generalizing mr with
  | zero => exact ⟨rfl, rfl⟩
  | succ f ih =>
    have h1 : maxReaderRead (f + 1) mr datLen = none := by
      rw [maxReaderRead, (ih mr).1]
    refine ⟨h1, ?_⟩
    rw [ioCopyMax, h1]

/-! ## Build cache (`src/unnamed/part_018`, `jsonDirCache`)

One JSON file per `(name, arch, bootstrap)` key.  The directory contents
are modelled as a function from file path to what opening and decoding the
file would yield. -/

/-- `buildmanager.BuildInfo`. -/
structure BuildInfo where
  packageName : String
  arch : String
  bootstrap : Bool
  hash : List Nat
deriving DecidableEq, Repr

/-- What opening and JSON-decoding a cache file yields: the file may be
absent, unreadable, or hold a decode result. -/
inductive CacheFile where
  | absent
  | unreadable (e : String)
  | stored (r : Except String BuildInfo)

/-- The cache file path for a `BuildInfo`:
`filepath.Join(dir, filepath.Clean(fmt.Sprintf("%s-%s%s.json", ...)))`. -/
def cacheFilePath (dir : String) (b : BuildInfo) : String :=
  pathJoin dir (pathClean (b.packageName ++ "-" ++ b.arch ++
    (if b.bootstrap then "-bootstrap" else "") ++ ".json"))

/-- `jsonDirCache.CheckLatest` from `src/unnamed/part_018`: the Go pair
`(bool, error)` is returned as `Bool × Option String`.  Note the branch
`if os.IsNotExist(err) { return true, nil }`. -/
def checkLatest (fs : String → CacheFile) (dir : String) (b : BuildInfo) :
    Bool × Option String :=
  match fs (cacheFilePath dir b) with
  | .absent => (true, none)
  | .unreadable e => (false, some e)
  | .stored (.error e) => (false, some e)
  | .stored (.ok obi) => (b == obi, none)

/-- The cache consultation of `buildJob.ShouldRun`
(`buildmanager/builder.go`): `il, err := CheckLatest(bi); return !il, err`. -/
def shouldRunCache (fs : String → CacheFile) (dir : String) (b : BuildInfo) :
    Bool × Option String :=
  let r := checkLatest fs dir b
  (!r.1, r.2)

/-- An empty cache directory: every file is absent (the cold cache). -/
def emptyCacheDir : String → CacheFile := fun _ => .absent

/-- C4's concrete build info. -/
def c4Info : BuildInfo :=
  { packageName := "foo", arch := "x86_64", bootstrap := false, hash := [1, 2, 3] }

/-- **C4** (code bug).  The claim (and the spec) say that an absent cache
file is a cold-cache miss — not an error — so the build runs.  In
`jsonDirCache.CheckLatest` the branch for `os.IsNotExist(err)` returns
`(true, nil)`, i.e. reports the build as already cached; `ShouldRun`
therefore returns `false` and the build is *skipped* on a cold cache.  At
the failing input (`c4Info` against an empty cache directory) the embedded
code returns `(true, none)` from `CheckLatest` and `(false, none)` from the
`ShouldRun` consultation, where the claim requires valid=false and a run.
(The interface's own doc — "CheckLatest checks if the BuildInfo matches the
current version" — and the sibling draft `dirJSONCache.Valid` in
`src/unnamed/part_028`, which returns `(false, nil)` for an absent file,
show the intent; the stored record in this draft also carries no error
text, so there is nothing to propagate on a cached failure.) -/
theorem checkLatest_absent_reports_cached :
    checkLatest emptyCacheDir "cache" c4Info = (true, none) ∧
    shouldRunCache emptyCacheDir "cache" c4Info = (false, none) := by
  exact ⟨rfl, rfl⟩

/-! ## Recipe index and dependency walker
(`buildmanager/rpindex.go`, `buildmanager/depwalk.go`)

`RawPackageIndex` maps package names to recipe entries; its `DepWalker`
resolves a package to the dependency list recorded for it inside its own
entry, failing with the typed `ErrPkgNotFound` when the package is not
indexed.  `depSet.walk` is the depth-first traversal with a seen-set; it is
embedded with fuel (the Go recursion terminates because every recursive
call marks a previously-unseen name; fuel sufficiency is proved below). -/

/-- Typed error of the walker (`buildmanager.ErrPkgNotFound`). -/
inductive WalkErr where
  | notFound (pkg : String)
deriving DecidableEq, Repr

/-- `buildmanager.RawPkent`: path of the recipe file plus the raw recipe. -/
structure RawPkent where
  path : String
  pkgen : RawPackageGenerator
deriving DecidableEq, Repr

/-- `buildmanager.RawPackageIndex` (a Go map, modelled as an association
list with first-match lookup). -/
abbrev RawPackageIndex := List (String × RawPkent)

/-- First-match association-list lookup (Go map indexing). -/
def assocFind {α : Type} : List (String × α) → String → Option α
  | [], _ => none
  | e :: r, p => if e.1 = p then some e.2 else assocFind r p

/-- The dependency list recorded for package `p` inside entry `ent`:
`ent.Pkgen.Packages[p].Dependencies` (a missing key yields the zero
`Package`, whose `nil` dependency slice ranges as empty). -/
def entDeps (ent : RawPkent) (p : String) : List String :=
  match assocFind ent.pkgen.packages p with
  | some pk => pk.dependencies.getD []
  | none => []

/-- Whether package `p` is present in the index. -/
def presentB (idx : RawPackageIndex) (p : String) : Bool :=
  (assocFind idx p).isSome

/-- Dependencies of `p` as seen through the index (empty for an absent
package; the walker itself errors there instead). -/
def depsOf (idx : RawPackageIndex) (p : String) : List String :=
  match assocFind idx p with
  | some ent => entDeps ent p
  | none => []

/-- `RawPackageIndex.DepWalker` from `buildmanager/rpindex.go`. -/
def dwIndex (idx : RawPackageIndex) (p : String) : Except WalkErr (List String) :=
  match assocFind idx p with
  | none => .error (.notFound p)
  | some ent => .ok (entDeps ent p)

/-- Walker state: the seen-set `depscan` and the output list `lst`. -/
structure WalkSt where
  seen : List String
  lst : List String
deriving DecidableEq, Repr

/-- One step of the loop that walks a dependency list: a still-successful
accumulator continues with the next package, an error or exhausted-fuel
accumulator is final. -/
def walkStep (w : String → WalkSt → Option (Except WalkErr WalkSt))
    (acc : Option (Except WalkErr WalkSt)) (d : String) :
    Option (Except WalkErr WalkSt) :=
  match acc with
  | some (.ok st) => w d st
  | other => other

/-- `depSet.walk` from `buildmanager/depwalk.go` (fuel-indexed, structural
on the fuel): skip a seen package, otherwise mark it, resolve its
dependencies (propagating `ErrPkgNotFound`), walk them in order, then
append the package — post-order emission. -/
def walkPkg (idx : RawPackageIndex) : Nat → String → WalkSt →
    Option (Except WalkErr WalkSt)
  | 0, _, _ => none
  | fuel + 1, p, st =>
    if p ∈ st.seen then some (.ok st)
    else
      match dwIndex idx p with
      | .error e => some (.error e)
      | .ok deps =>
        match deps.foldl (walkStep (walkPkg idx fuel)) (some (.ok ⟨p :: st.seen, st.lst⟩)) with
        | none => none
        | some (.error e) => some (.error e)
        | some (.ok st2) => some (.ok ⟨st2.seen, st2.lst ++ [p]⟩)

/-- The loop of `DepWalker.Walk` over a list of packages, threading the
walker state left to right. -/
def walkSeq (idx : RawPackageIndex) (fuel : Nat) (l : List String) (st : WalkSt) :
    Option (Except WalkErr WalkSt) :=
  l.foldl (walkStep (walkPkg idx fuel)) (some (.ok st))

/-- All names occurring in the index (entry keys and every recorded
dependency): the universe the walker can ever reach beyond its targets. -/
def uniNames (idx : RawPackageIndex) : List String :=
  (idx.map (fun e =>
    e.1 :: (e.2.pkgen.packages.map (fun q => q.2.dependencies.getD [])).flatten)).flatten

/-- Sufficient fuel for a walk: one more than the number of candidate
names. -/
def walkFuel (idx : RawPackageIndex) (targets : List String) : Nat :=
  (targets ++ uniNames idx).length + 1

/-- `DepWalker.Walk` from `buildmanager/depwalk.go`: fresh state, walk each
target, return the accumulated list.  (`none`, fuel exhaustion, never
happens: `depWalk_total` below.) -/
def depWalk (idx : RawPackageIndex) (targets : List String) :
    Option (Except WalkErr (List String)) :=
  match walkSeq idx (walkFuel idx targets) targets ⟨[], []⟩ with
  | none => none
  | some (.error e) => some (.error e)
  | some (.ok st) => some (.ok st.lst)

/-- Helper to build concrete recipe entries. -/
def entOf (path : String) (pkgs : List (String × List String)) (bld : String)
    (bdeps : List String) (noboot : List String) : RawPkent :=
  ⟨path,
   { packages := pkgs.map (fun q => (q.1, ⟨some q.2⟩))
     arch := ["x86_64"]
     version := "1.0"
     build := 0
     sources := []
     script := []
     buildDependencies := bdeps
     builder := bld
     cross := false
     noBootstrap := noboot }⟩

/-- A two-package index whose dependency relation is the cycle
`a → b → a`. -/
def cyclicIdx : RawPackageIndex :=
  [("a", entOf "pkgs/a/pkgen.yaml" [("a", ["b"])] "default" [] []),
   ("b", entOf "pkgs/b/pkgen.yaml" [("b", ["a"])] "default" [] [])]

/-- **C7 counterexample** (claim corrected).  The claim states that on a
cyclic reachable dependency relation, `Walk` rejects the input by
returning an error rather than a package list.  On the concrete cycle
`a → b → a` the walker's seen-set silently closes the loop and `Walk`
returns the list `["b", "a"]` with no error: cycles are not detected (and
the returned list even violates post-order, `a ∈ deps(b)` appearing after
`b`). -/
theorem depWalk_cycle_returns_list :
    depWalk cyclicIdx ["a"] = some (.ok ["b", "a"]) := by
  rfl

/-! ### Walker lemmas

`WalkDelta` records the relationship between the walker state before and
after a successful (sub)walk: the output list is extended by a
duplicate-free block `delta` of previously-unseen packages, the seen-set
grows by exactly that block, every emitted package is present in the index
with all its dependencies seen on exit, and every emitted package lies in
every dependency-closed set containing the roots (i.e. is reachable). -/

/-- Relation between walker states across a successful sub-walk rooted at
`roots`, with `delta` the emitted block. -/
structure WalkDelta (idx : RawPackageIndex) (roots : List String)
    (st st' : WalkSt) (delta : List String) : Prop where
  lst_eq : st'.lst = st.lst ++ delta
  nodup : delta.Nodup
  fresh : ∀ x ∈ delta, x ∉ st.seen
  seen_iff : ∀ x, x ∈ st'.seen ↔ (x ∈ st.seen ∨ x ∈ delta)
  present : ∀ x ∈ delta, presentB idx x = true
  deps_seen : ∀ x ∈ delta, ∀ d ∈ depsOf idx x, d ∈ st'.seen
  reach : ∀ S : String → Prop, (∀ a, S a → ∀ d ∈ depsOf idx a, S d) →
      (∀ r ∈ roots, S r) → ∀ x ∈ delta, S x

theorem assocFind_mem {α : Type} : ∀ {l : List (String × α)} {p : String} {v : α},
    assocFind l p = some v → (p, v) ∈ l := by
  intro l
  induction l with
  | nil => intro p v h; simp [assocFind] at h
  | cons e r ih =>
    intro p v h
    rw [assocFind] at h
    by_cases he : e.1 = p
    · simp [he] at h
      have : (p, v) = e := by
        cases e with
        | mk a b =>
          simp at he h
          simp [he, h]
      rw [this]
      exact List.mem_cons_self _ _
    · simp [he] at h
      exact List.mem_cons_of_mem _ (ih h)

theorem dwIndex_ok {idx : RawPackageIndex} {p : String} {deps : List String}
    (h : dwIndex idx p = .ok deps) :
    presentB idx p = true ∧ depsOf idx p = deps := by
  unfold dwIndex at h
  unfold presentB depsOf
  cases hf : assocFind idx p with
  | none => rw [hf] at h; exact absurd h (by simp)
  | some ent => rw [hf] at h; simp at h; simp [h]

theorem dwIndex_error {idx : RawPackageIndex} {p : String} {e : WalkErr}
    (h : dwIndex idx p = .error e) :
    e = .notFound p ∧ presentB idx p = false := by
  unfold dwIndex at h
  unfold presentB
  cases hf : assocFind idx p with
  | none => rw [hf] at h; simp at h; simp [h]
  | some ent => rw [hf] at h; exact absurd h (by simp)

theorem walkSeq_nil (idx : RawPackageIndex) (fuel : Nat) (st : WalkSt) :
    walkSeq idx fuel [] st = some (.ok st) := rfl

theorem foldl_walkStep_none (w : String → WalkSt → Option (Except WalkErr WalkSt)) :
    ∀ l : List String, l.foldl (walkStep w) none = none := by
  intro l; induction l with
  | nil => rfl
  | cons d ds ih => simpa [walkStep] using ih

theorem foldl_walkStep_error (w : String → WalkSt → Option (Except WalkErr WalkSt))
    (e : WalkErr) :
    ∀ l : List String, l.foldl (walkStep w) (some (.error e)) = some (.error e) := by
  intro l; induction l with
  | nil => rfl
  | cons d ds ih => simpa [walkStep] using ih

theorem walkSeq_cons (idx : RawPackageIndex) (fuel : Nat) (d : String)
    (ds : List String) (st : WalkSt) :
    walkSeq idx fuel (d :: ds) st =
      match walkPkg idx fuel d st with
      | none => none
      | some (.error e) => some (.error e)
      | some (.ok st1) => walkSeq idx fuel ds st1 := by
  unfold walkSeq
  rw [List.foldl_cons]
  cases h : walkPkg idx fuel d st with
  | none => simp [walkStep, h, foldl_walkStep_none]
  | some r =>
    cases r with
    | error e => simp [walkStep, h, foldl_walkStep_error]
    | ok st1 => simp [walkStep, h]

theorem walkPkg_succ (idx : RawPackageIndex) (fuel : Nat) (p : String) (st : WalkSt) :
    walkPkg idx (fuel + 1) p st =
      if p ∈ st.seen then some (.ok st)
      else
        match dwIndex idx p with
        | .error e => some (.error e)
        | .ok deps =>
          match walkSeq idx fuel deps ⟨p :: st.seen, st.lst⟩ with
          | none => none
          | some (.error e) => some (.error e)
          | some (.ok st2) => some (.ok ⟨st2.seen, st2.lst ++ [p]⟩) := rfl

theorem walkDelta_refl (idx : RawPackageIndex) (roots : List String) (st : WalkSt) :
    WalkDelta idx roots st st [] := by
  refine ⟨by simp, by simp, by simp, ?_, by simp, by simp, by simp⟩
  intro x; simp

theorem walkDelta_seen_sub {idx : RawPackageIndex} {roots : List String}
    {st st' : WalkSt} {delta : List String}
    (h : WalkDelta idx roots st st' delta) : ∀ x ∈ st.seen, x ∈ st'.seen := by
  intro x hx
  exact (h.seen_iff x).mpr (Or.inl hx)

theorem walkDelta_comp {idx : RawPackageIndex} {r1 r2 : List String}
    {st st1 st2 : WalkSt} {d1 d2 : List String}
    (h1 : WalkDelta idx r1 st st1 d1) (h2 : WalkDelta idx r2 st1 st2 d2) :
    WalkDelta idx (r1 ++ r2) st st2 (d1 ++ d2) := by
  refine ⟨?_, ?_, ?_, ?_, ?_, ?_, ?_⟩
  · rw [h2.lst_eq, h1.lst_eq, List.append_assoc]
  · refine List.Nodup.append h1.nodup h2.nodup ?_
    intro x hx1 hx2
    exact h2.fresh x hx2 ((h1.seen_iff x).mpr (Or.inr hx1))
  · intro x hx
    rcases List.mem_append.mp hx with hx | hx
    · exact h1.fresh x hx
    · intro hseen
      exact h2.fresh x hx ((h1.seen_iff x).mpr (Or.inl hseen))
  · intro x
    rw [h2.seen_iff x, h1.seen_iff x, List.mem_append]
    tauto
  · intro x hx
    rcases List.mem_append.mp hx with hx | hx
    · exact h1.present x hx
    · exact h2.present x hx
  · intro x hx d hd
    rcases List.mem_append.mp hx with hx | hx
    · exact walkDelta_seen_sub h2 d (h1.deps_seen x hx d hd)
    · exact h2.deps_seen x hx d hd
  · intro S hS hroots x hx
    rcases List.mem_append.mp hx with hx | hx
    · exact h1.reach S hS (fun r hr => hroots r (List.mem_append.mpr (Or.inl hr))) x hx
    · exact h2.reach S hS (fun r hr => hroots r (List.mem_append.mpr (Or.inr hr))) x hx

/-- The `walkSeq` half of the shape lemma, derived from the `walkPkg` half
at the same fuel. -/
theorem walkSeq_ok_delta_of (idx : RawPackageIndex) (fuel : Nat)
    (hP : ∀ p st st', walkPkg idx fuel p st = some (.ok st') →
      (∃ delta, WalkDelta idx [p] st st' delta) ∧ p ∈ st'.seen) :
    ∀ (l : List String) (st st' : WalkSt), walkSeq idx fuel l st = some (.ok st') →
      (∃ delta, WalkDelta idx l st st' delta) ∧ ∀ d ∈ l, d ∈ st'.seen := by
  intro l
  induction l with
  | nil =>
    intro st st' h
    rw [walkSeq_nil] at h
    simp at h
    subst h
    exact ⟨⟨[], walkDelta_refl idx [] st⟩, by simp⟩
  | cons d ds ih =>
    intro st st' h
    rw [walkSeq_cons] at h
    cases hw : walkPkg idx fuel d st with
    | none => rw [hw] at h; simp at h
    | some r =>
      cases r with
      | error e => rw [hw] at h; simp at h
      | ok st1 =>
        rw [hw] at h
        obtain ⟨⟨d1, hd1⟩, hdseen⟩ := hP d st st1 hw
        obtain ⟨⟨d2, hd2⟩, hds⟩ := ih st1 st' h
        refine ⟨⟨d1 ++ d2, ?_⟩, ?_⟩
        · have := walkDelta_comp hd1 hd2
          simpa using this
        · intro x hx
          rcases List.mem_cons.mp hx with hx | hx
          · subst hx
            exact walkDelta_seen_sub hd2 x hdseen
          · exact hds x hx

/-- Shape of a successful `walkPkg`: joint fuel induction with
`walkSeq_ok_delta_of`. -/
theorem walkPkg_ok_delta (idx : RawPackageIndex) :
    ∀ (fuel : Nat) (p : String) (st st' : WalkSt),
      walkPkg idx fuel p st = some (.ok st') →
      (∃ delta, WalkDelta idx [p] st st' delta) ∧ p ∈ st'.seen := by
  intro fuel
  induction fuel with
  | zero => intro p st st' h; exact absurd h (by simp [walkPkg])
  | succ f ih =>
    intro p st st' h
    rw [walkPkg_succ] at h
    by_cases hs : p ∈ st.seen
    · rw [if_pos hs] at h
      simp at h
      subst h
      exact ⟨⟨[], walkDelta_refl idx [p] st⟩, hs⟩
    · rw [if_neg hs] at h
      cases hdw : dwIndex idx p with
      | error e => rw [hdw] at h; simp at h
      | ok deps =>
        rw [hdw] at h
        dsimp only at h
        cases hws : walkSeq idx f deps ⟨p :: st.seen, st.lst⟩ with
        | none => rw [hws] at h; simp at h
        | some r =>
          cases r with
          | error e => rw [hws] at h; simp at h
          | ok st2 =>
            rw [hws] at h
            simp at h
            obtain ⟨hpres, hdeps⟩ := dwIndex_ok hdw
            obtain ⟨⟨d2, hd2⟩, hall⟩ := walkSeq_ok_delta_of idx f ih deps _ _ hws
            have hpseen1 : p ∈ WalkSt.seen ⟨p :: st.seen, st.lst⟩ := by
              simp
            refine ⟨⟨d2 ++ [p], ?_⟩, ?_⟩
            · refine ⟨?_, ?_, ?_, ?_, ?_, ?_, ?_⟩
              · rw [← h]
                simp only []
                rw [hd2.lst_eq]
                simp [List.append_assoc]
              · refine List.Nodup.append hd2.nodup (by simp) ?_
                intro x hx1 hx2
                simp at hx2
                subst hx2
                exact hd2.fresh x hx1 hpseen1
              · intro x hx
                rcases List.mem_append.mp hx with hx | hx
                · intro hseen
                  exact hd2.fresh x hx (by simp [hseen])
                · simp at hx
                  subst hx
                  exact hs
              · intro x
                rw [← h]
                simp only []
                rw [hd2.seen_iff x]
                simp only [WalkSt.seen, List.mem_cons, List.mem_append,
                  List.mem_singleton]
                tauto
              · intro x hx
                rcases List.mem_append.mp hx with hx | hx
                · exact hd2.present x hx
                · simp at hx; subst hx; exact hpres
              · intro x hx d hd
                rw [← h]
                simp only []
                rcases List.mem_append.mp hx with hx | hx
                · exact hd2.deps_seen x hx d hd
                · simp at hx
                  subst hx
                  rw [hdeps] at hd
                  exact hall d hd
              · intro S hS hroots x hx
                have hSp : S p := hroots p (by simp)
                rcases List.mem_append.mp hx with hx | hx
                · refine hd2.reach S hS ?_ x hx
                  intro r hr
                  exact hS p hSp r (by rw [hdeps]; exact hr)
                · simp at hx; subst hx; exact hSp
            · rw [← h]
              simp only []
              exact (hd2.seen_iff p).mpr (Or.inl hpseen1)

/-- What a walker error means: a typed `ErrPkgNotFound` naming a package
that is absent from the index and reachable from the roots (it lies in
every dependency-closed set containing them). -/
def WalkErrSpec (idx : RawPackageIndex) (roots : List String) (e : WalkErr) : Prop :=
  ∃ q, e = .notFound q ∧ presentB idx q = false ∧
    (∀ S : String → Prop, (∀ a, S a → ∀ d ∈ depsOf idx a, S d) →
      (∀ r ∈ roots, S r) → S q)

theorem walkErrSpec_widen {idx : RawPackageIndex} {r1 r2 : List String} {e : WalkErr}
    (hsub : ∀ x ∈ r1, x ∈ r2) (h : WalkErrSpec idx r1 e) : WalkErrSpec idx r2 e := by
  obtain ⟨q, he, hp, hr⟩ := h
  exact ⟨q, he, hp, fun S hS hroots => hr S hS (fun r hr' => hroots r (hsub r hr'))⟩

/-- The `walkSeq` half of the error lemma, from the `walkPkg` half at the
same fuel. -/
theorem walkSeq_error_of (idx : RawPackageIndex) (fuel : Nat)
    (hP : ∀ p st e, walkPkg idx fuel p st = some (.error e) → WalkErrSpec idx [p] e) :
    ∀ (l : List String) (st : WalkSt) (e : WalkErr),
      walkSeq idx fuel l st = some (.error e) → WalkErrSpec idx l e := by
  intro l
  induction l with
  | nil => intro st e h; rw [walkSeq_nil] at h; simp at h
  | cons d ds ih =>
    intro st e h
    rw [walkSeq_cons] at h
    cases hw : walkPkg idx fuel d st with
    | none => rw [hw] at h; simp at h
    | some r =>
      cases r with
      | error e' =>
        rw [hw] at h
        simp at h
        subst h
        exact walkErrSpec_widen (by simp) (hP d st e' hw)
      | ok st1 =>
        rw [hw] at h
        exact walkErrSpec_widen (fun x hx => List.mem_cons_of_mem _ hx) (ih st1 e h)

/-- Error shape of `walkPkg`: joint fuel induction with `walkSeq_error_of`. -/
theorem walkPkg_error (idx : RawPackageIndex) :
    ∀ (fuel : Nat) (p : String) (st : WalkSt) (e : WalkErr),
      walkPkg idx fuel p st = some (.error e) → WalkErrSpec idx [p] e := by
  intro fuel
  induction fuel with
  | zero => intro p st e h; exact absurd h (by simp [walkPkg])
  | succ f ih =>
    intro p st e h
    rw [walkPkg_succ] at h
    by_cases hs : p ∈ st.seen
    · rw [if_pos hs] at h; simp at h
    · rw [if_neg hs] at h
      cases hdw : dwIndex idx p with
      | error e' =>
        rw [hdw] at h
        simp at h
        subst h
        obtain ⟨he, hp⟩ := dwIndex_error hdw
        exact ⟨p, he, hp, fun S _ hroots => hroots p (by simp)⟩
      | ok deps =>
        rw [hdw] at h
        dsimp only at h
        obtain ⟨hpres, hdeps⟩ := dwIndex_ok hdw
        cases hws : walkSeq idx f deps ⟨p :: st.seen, st.lst⟩ with
        | none => rw [hws] at h; simp at h
        | some r =>
          cases r with
          | error e' =>
            rw [hws] at h
            simp at h
            subst h
            have hseqspec := walkSeq_error_of idx f ih deps _ e' hws
            obtain ⟨q, he, hq, hr⟩ := hseqspec
            refine ⟨q, he, hq, ?_⟩
            intro S hS hroots
            have hSp : S p := hroots p (by simp)
            exact hr S hS (fun r hrm => hS p hSp r (by rw [hdeps]; exact hrm))
          | ok st2 => rw [hws] at h; simp at h

/-! ### Fuel sufficiency

Fuel beyond the number of still-unseen candidate names never runs out:
every nested call of `depSet.walk` marks a previously unseen name, so the
recursion depth is bounded by the number of names the walker can ever see. -/

/-- Number of elements of the candidate universe `U` not yet seen. -/
def unseenCount (U : List String) (st : WalkSt) : Nat :=
  (U.filter (fun x => decide (x ∉ st.seen))).length

theorem filter_length_mono {α : Type} (q r : α → Bool)
    (h : ∀ x, q x = true → r x = true) :
    ∀ U : List α, (U.filter q).length ≤ (U.filter r).length := by
  intro U
  induction U with
  | nil => simp
  | cons u U' ih =>
    by_cases hq : q u = true
    · rw [List.filter_cons_of_pos hq, List.filter_cons_of_pos (h u hq)]
      simpa using ih
    · rw [List.filter_cons_of_neg (by simpa using hq)]
      by_cases hr : r u = true
      · rw [List.filter_cons_of_pos hr]
        exact le_trans ih (by simp)
      · rw [List.filter_cons_of_neg (by simpa using hr)]
        exact ih

theorem unseenCount_mark_lt (U : List String) (st : WalkSt) (p : String)
    (hU : p ∈ U) (hs : p ∉ st.seen) :
    unseenCount U ⟨p :: st.seen, st.lst⟩ < unseenCount U st := by
  unfold unseenCount
  induction U with
  | nil => simp at hU
  | cons u U' ih =>
    rcases List.mem_cons.mp hU with hu | hu
    · subst hu
      rw [List.filter_cons_of_neg (by simp), List.filter_cons_of_pos (by simpa using hs)]
      simp only [List.length_cons, Nat.lt_succ_iff]
      exact filter_length_mono _ _ (by intro x hx; simp at hx ⊢; tauto) U'
    · by_cases hm2 : u ∈ st.seen
      · rw [List.filter_cons_of_neg (by simp [hm2]),
          List.filter_cons_of_neg (by simp [hm2])]
        exact ih hu
      · by_cases hup : u = p
        · subst hup
          rw [List.filter_cons_of_neg (by simp),
            List.filter_cons_of_pos (by simp [hm2])]
          exact Nat.lt_succ_of_lt (ih hu)
        · rw [List.filter_cons_of_pos (by simp [hup, hm2]),
            List.filter_cons_of_pos (by simp [hm2])]
          simpa using ih hu

theorem unseenCount_le_of_seen_sub (U : List String) (st st' : WalkSt)
    (h : ∀ x ∈ st.seen, x ∈ st'.seen) :
    unseenCount U st' ≤ unseenCount U st := by
  unfold unseenCount
  refine filter_length_mono _ _ ?_ U
  intro x hx
  simp at hx ⊢
  intro hc
  exact hx (h x hc)

/-- The `walkSeq` half of fuel sufficiency, from the `walkPkg` half at the
same fuel. -/
theorem walkSeq_total_of (idx : RawPackageIndex) (U : List String) (fuel : Nat)
    (hP : ∀ p st, p ∈ U → unseenCount U st < fuel → walkPkg idx fuel p st ≠ none) :
    ∀ (l : List String) (st : WalkSt), (∀ d ∈ l, d ∈ U) → unseenCount U st < fuel →
      walkSeq idx fuel l st ≠ none := by
  intro l
  induction l with
  | nil => intro st _ _ h; rw [walkSeq_nil] at h; simp at h
  | cons d ds ih =>
    intro st hl hc h
    rw [walkSeq_cons] at h
    cases hw : walkPkg idx fuel d st with
    | none => exact hP d st (hl d (by simp)) hc hw
    | some r =>
      cases r with
      | error e => rw [hw] at h; simp at h
      | ok st1 =>
        rw [hw] at h
        have hmono : ∀ x ∈ st.seen, x ∈ st1.seen := by
          obtain ⟨⟨delta, hd⟩, _⟩ := walkPkg_ok_delta idx fuel d st st1 hw
          exact walkDelta_seen_sub hd
        refine ih st1 (fun x hx => hl x (List.mem_cons_of_mem _ hx)) ?_ h
        exact lt_of_le_of_lt (unseenCount_le_of_seen_sub U st st1 hmono) hc

/-- Fuel sufficiency for `walkPkg`, assuming the universe `U` is closed
under the dependency relation of the index. -/
theorem walkPkg_total (idx : RawPackageIndex) (U : List String)
    (hUc : ∀ q d, d ∈ depsOf idx q → d ∈ U) :
    ∀ (fuel : Nat) (p : String) (st : WalkSt), p ∈ U → unseenCount U st < fuel →
      walkPkg idx fuel p st ≠ none := by
  intro fuel
  induction fuel with
  | zero => intro p st _ hc; omega
  | succ f ih =>
    intro p st hU hc h
    rw [walkPkg_succ] at h
    by_cases hs : p ∈ st.seen
    · rw [if_pos hs] at h; simp at h
    · rw [if_neg hs] at h
      cases hdw : dwIndex idx p with
      | error e => rw [hdw] at h; simp at h
      | ok deps =>
        rw [hdw] at h
        dsimp only at h
        obtain ⟨hpres, hdeps⟩ := dwIndex_ok hdw
        have hlt : unseenCount U ⟨p :: st.seen, st.lst⟩ < f := by
          have h1 := unseenCount_mark_lt U st p hU hs
          omega
        have hseq : walkSeq idx f deps ⟨p :: st.seen, st.lst⟩ ≠ none := by
          refine walkSeq_total_of idx U f (fun p' st' hU' hc' => ih p' st' hU' hc')
            deps _ ?_ hlt
          intro d hd
          exact hUc p d (by rw [hdeps]; exact hd)
        cases hws : walkSeq idx f deps ⟨p :: st.seen, st.lst⟩ with
        | none => exact hseq hws
        | some r =>
          rw [hws] at h
          cases r with
          | error e => simp at h
          | ok st2 => simp at h

/-! ### Post-order

`closedPost idx L` states that every entry of `L` has all its dependencies
strictly before it — the post-order property.  The walker preserves it:
grey packages (seen but not yet emitted, i.e. the current recursion stack)
always rank at least as high as the package being walked, so when a package
is emitted all its (lower-ranking) dependencies are already black. -/

/-- Every element of `L` is preceded by its dependencies. -/
def closedPost (idx : RawPackageIndex) (L : List String) : Prop :=
  ∀ (n : Nat) (h : n < L.length), ∀ d ∈ depsOf idx (L.get ⟨n, h⟩), d ∈ L.take n

/-- A grey package: seen but not yet emitted. -/
def GreyOf (st : WalkSt) (x : String) : Prop :=
  x ∈ st.seen ∧ x ∉ st.lst

theorem walkDelta_grey_iff {idx : RawPackageIndex} {roots : List String}
    {st st' : WalkSt} {delta : List String}
    (h : WalkDelta idx roots st st' delta) :
    ∀ g, GreyOf st' g ↔ GreyOf st g := by
  intro g
  constructor
  · rintro ⟨hseen, hlst⟩
    rcases (h.seen_iff g).mp hseen with hg | hg
    · refine ⟨hg, ?_⟩
      intro hc
      exact hlst (by rw [h.lst_eq]; exact List.mem_append.mpr (Or.inl hc))
    · exact absurd (by rw [h.lst_eq]; exact List.mem_append.mpr (Or.inr hg)) hlst
  · rintro ⟨hseen, hlst⟩
    refine ⟨(h.seen_iff g).mpr (Or.inl hseen), ?_⟩
    rw [h.lst_eq]
    intro hc
    rcases List.mem_append.mp hc with hg | hg
    · exact hlst hg
    · exact h.fresh g hg hseen

/-- The `walkSeq` half of the post-order lemma, from the `walkPkg` half at
the same fuel. -/
theorem walkSeq_post_of (idx : RawPackageIndex) (R : List String)
    (rank : String → Nat) (fuel : Nat)
    (hP : ∀ p st st', walkPkg idx fuel p st = some (.ok st') → p ∈ R →
      (∀ g, GreyOf st g → rank p ≤ rank g) →
      closedPost idx st.lst → (∀ x ∈ st.lst, x ∈ st.seen) →
      closedPost idx st'.lst ∧ (∀ x ∈ st'.lst, x ∈ st'.seen)) :
    ∀ (l : List String) (st st' : WalkSt),
      walkSeq idx fuel l st = some (.ok st') →
      (∀ d ∈ l, d ∈ R) →
      (∀ d ∈ l, ∀ g, GreyOf st g → rank d ≤ rank g) →
      closedPost idx st.lst → (∀ x ∈ st.lst, x ∈ st.seen) →
      closedPost idx st'.lst ∧ (∀ x ∈ st'.lst, x ∈ st'.seen) := by
  intro l
  induction l with
  | nil =>
    intro st st' h _ _ hcp hsub
    rw [walkSeq_nil] at h
    simp at h
    subst h
    exact ⟨hcp, hsub⟩
  | cons d ds ih =>
    intro st st' h hR hgrey hcp hsub
    rw [walkSeq_cons] at h
    cases hw : walkPkg idx fuel d st with
    | none => rw [hw] at h; simp at h
    | some r =>
      cases r with
      | error e => rw [hw] at h; simp at h
      | ok st1 =>
        rw [hw] at h
        obtain ⟨hcp1, hsub1⟩ := hP d st st1 hw (hR d (by simp))
          (hgrey d (by simp)) hcp hsub
        obtain ⟨⟨d1, hd1⟩, _⟩ := walkPkg_ok_delta idx fuel d st st1 hw
        refine ih st1 st' h (fun x hx => hR x (List.mem_cons_of_mem _ hx)) ?_ hcp1 hsub1
        intro x hx g hg
        exact hgrey x (List.mem_cons_of_mem _ hx) g ((walkDelta_grey_iff hd1 g).mp hg)

/-- Post-order preservation by `walkPkg`: joint fuel induction with
`walkSeq_post_of`, under a ranking certificate for the closed set `R`. -/
theorem walkPkg_post (idx : RawPackageIndex) (R : List String) (rank : String → Nat)
    (hRC : ∀ q ∈ R, ∀ d ∈ depsOf idx q, d ∈ R ∧ rank d < rank q) :
    ∀ (fuel : Nat) (p : String) (st st' : WalkSt),
      walkPkg idx fuel p st = some (.ok st') → p ∈ R →
      (∀ g, GreyOf st g → rank p ≤ rank g) →
      closedPost idx st.lst → (∀ x ∈ st.lst, x ∈ st.seen) →
      closedPost idx st'.lst ∧ (∀ x ∈ st'.lst, x ∈ st'.seen) := by
  intro fuel
  induction fuel with
  | zero => intro p st st' h; exact absurd h (by simp [walkPkg])
  | succ f ih =>
    intro p st st' h hpR hgrey hcp hsub
    rw [walkPkg_succ] at h
    by_cases hs : p ∈ st.seen
    · rw [if_pos hs] at h
      simp at h
      subst h
      exact ⟨hcp, hsub⟩
    · rw [if_neg hs] at h
      cases hdw : dwIndex idx p with
      | error e => rw [hdw] at h; simp at h
      | ok deps =>
        rw [hdw] at h
        dsimp only at h
        obtain ⟨hpres, hdeps⟩ := dwIndex_ok hdw
        cases hws : walkSeq idx f deps ⟨p :: st.seen, st.lst⟩ with
        | none => rw [hws] at h; simp at h
        | some r =>
          cases r with
          | error e => rw [hws] at h; simp at h
          | ok st2 =>
            rw [hws] at h
            simp at h
            obtain ⟨⟨d2, hd2⟩, hall⟩ :=
              walkSeq_ok_delta_of idx f (walkPkg_ok_delta idx f) deps _ _ hws
            have hds : ∀ d ∈ deps, d ∈ R ∧ rank d < rank p := by
              intro d hd
              exact hRC p hpR d (by rw [hdeps]; exact hd)
            have hgrey1 : ∀ d ∈ deps, ∀ g,
                GreyOf ⟨p :: st.seen, st.lst⟩ g → rank d ≤ rank g := by
              intro d hd g hg
              obtain ⟨hgseen, hglst⟩ := hg
              simp only [List.mem_cons] at hgseen
              rcases hgseen with hgp | hgseen
              · subst hgp
                exact le_of_lt (hds d hd).2
              · exact le_trans (le_of_lt (hds d hd).2) (hgrey g ⟨hgseen, hglst⟩)
            obtain ⟨hcp2, hsub2⟩ := walkSeq_post_of idx R rank f ih deps _ _ hws
              (fun d hd => (hds d hd).1) hgrey1 hcp
              (fun x hx => by simp [hsub x hx])
            have hdepsin : ∀ d ∈ depsOf idx p, d ∈ st2.lst := by
              intro d hd
              have hdeps' : d ∈ deps := by rw [hdeps] at hd; exact hd
              have hdseen : d ∈ st2.seen := hall d hdeps'
              by_contra hdn
              have hgrey2 : GreyOf st2 d := ⟨hdseen, hdn⟩
              have hgrey1' : GreyOf ⟨p :: st.seen, st.lst⟩ d :=
                (walkDelta_grey_iff hd2 d).mp hgrey2
              obtain ⟨hgseen, hglst⟩ := hgrey1'
              have hdrank : rank d < rank p := (hds d hdeps').2
              simp only [List.mem_cons] at hgseen
              rcases hgseen with hgp | hgseen
              · subst hgp; omega
              · have := hgrey d ⟨hgseen, hglst⟩
                omega
            rw [← h]
            constructor
            · intro n hn d hd
              simp only at hn hd ⊢
              have hlen : n < st2.lst.length + 1 := by
                simpa using hn
              by_cases hlt : n < st2.lst.length
              · have hget : (st2.lst ++ [p]).get ⟨n, hn⟩ = st2.lst.get ⟨n, hlt⟩ := by
                  rw [List.get_append _ hlt]
                rw [hget] at hd
                rw [List.take_append_of_le_length (le_of_lt hlt)]
                exact hcp2 n hlt d hd
              · have hn' : n = st2.lst.length := by omega
                subst hn'
                have hget : (st2.lst ++ [p]).get ⟨st2.lst.length, hn⟩ = p := by
                  simp [List.get_append_right]
                rw [hget] at hd
                rw [List.take_append_of_le_length (le_refl _), List.take_length]
                exact hdepsin d hd
            · intro x hx
              simp only at hx ⊢
              rcases List.mem_append.mp hx with hx | hx
              · exact hsub2 x hx
              · simp at hx
                rw [hx]
                exact (hd2.seen_iff p).mpr (Or.inl (by simp))

theorem depsOf_sub_uni (idx : RawPackageIndex) :
    ∀ q d, d ∈ depsOf idx q → d ∈ uniNames idx := by
  intro q d hd
  unfold depsOf at hd
  cases hf : assocFind idx q with
  | none => rw [hf] at hd; simp at hd
  | some ent =>
    rw [hf] at hd
    dsimp only at hd
    have hmem := assocFind_mem hf
    unfold entDeps at hd
    cases hg : assocFind ent.pkgen.packages q with
    | none => rw [hg] at hd; simp at hd
    | some pk =>
      rw [hg] at hd
      dsimp only at hd
      have hmem2 := assocFind_mem hg
      unfold uniNames
      rw [List.mem_flatten]
      refine ⟨(q, ent).1 ::
        ((q, ent).2.pkgen.packages.map (fun r => r.2.dependencies.getD [])).flatten,
        List.mem_map_of_mem _ hmem, ?_⟩
      apply List.mem_cons_of_mem
      rw [List.mem_flatten]
      exact ⟨pk.dependencies.getD [],
        List.mem_map_of_mem (fun r => r.2.dependencies.getD []) hmem2, hd⟩

/-- The Go walk always terminates: the chosen fuel is never exhausted. -/
theorem depWalk_some (idx : RawPackageIndex) (targets : List String) :
    ∃ r, depWalk idx targets = some r := by
  unfold depWalk
  have hU : ∀ d ∈ targets, d ∈ targets ++ uniNames idx := by
    intro d hd; exact List.mem_append.mpr (Or.inl hd)
  have hUc : ∀ q d, d ∈ depsOf idx q → d ∈ targets ++ uniNames idx := by
    intro q d hd; exact List.mem_append.mpr (Or.inr (depsOf_sub_uni idx q d hd))
  have hcount : unseenCount (targets ++ uniNames idx) ⟨[], []⟩ <
      walkFuel idx targets := by
    unfold unseenCount walkFuel
    have : (targets ++ uniNames idx).filter (fun x => decide (x ∉ WalkSt.seen ⟨[], []⟩))
        = targets ++ uniNames idx := by
      rw [List.filter_eq_self]
      intro a _
      simp
    rw [this]
    omega
  have hne := walkSeq_total_of idx (targets ++ uniNames idx) (walkFuel idx targets)
    (fun p st hp hc => walkPkg_total idx (targets ++ uniNames idx) hUc
      (walkFuel idx targets) p st hp hc)
    targets ⟨[], []⟩ hU hcount
  cases hws : walkSeq idx (walkFuel idx targets) targets ⟨[], []⟩ with
  | none => exact absurd hws hne
  | some r =>
    cases r with
    | error e => exact ⟨.error e, rfl⟩
    | ok st => exact ⟨.ok st.lst, rfl⟩

/-- Facts about a successful top-level walk, instances of the shape lemma
at the empty initial state. -/
theorem depWalk_ok_facts {idx : RawPackageIndex} {targets : List String}
    {L : List String} (h : depWalk idx targets = some (.ok L)) :
    L.Nodup ∧ (∀ t ∈ targets, t ∈ L) ∧ (∀ x ∈ L, presentB idx x = true) ∧
    (∀ x ∈ L, ∀ d ∈ depsOf idx x, d ∈ L) ∧
    (∀ S : String → Prop, (∀ a, S a → ∀ d ∈ depsOf idx a, S d) →
      (∀ t ∈ targets, S t) → ∀ x ∈ L, S x) := by
  unfold depWalk at h
  cases hws : walkSeq idx (walkFuel idx targets) targets ⟨[], []⟩ with
  | none => rw [hws] at h; simp at h
  | some r =>
    cases r with
    | error e => rw [hws] at h; simp at h
    | ok st =>
      rw [hws] at h
      simp at h
      obtain ⟨⟨delta, hd⟩, hall⟩ :=
        walkSeq_ok_delta_of idx (walkFuel idx targets)
          (walkPkg_ok_delta idx (walkFuel idx targets)) targets _ _ hws
      have hlst : st.lst = delta := by
        have := hd.lst_eq
        simpa using this
      have hseen : ∀ x, x ∈ st.seen ↔ x ∈ L := by
        intro x
        rw [hd.seen_iff x]
        subst h
        rw [hlst]
        simp
      subst h
      refine ⟨by rw [hlst]; exact hd.nodup, ?_, ?_, ?_, ?_⟩
      · intro t ht
        exact (hseen t).mp (hall t ht)
      · intro x hx
        rw [hlst] at hx
        exact hd.present x hx
      · intro x hx d hdep
        rw [hlst] at hx
        exact (hseen d).mp (hd.deps_seen x hx d hdep)
      · intro S hS hT x hx
        rw [hlst] at hx
        exact hd.reach S hS hT x hx

/-- An erroring top-level walk yields a typed not-found error naming an
absent, reachable package. -/
theorem depWalk_error_facts {idx : RawPackageIndex} {targets : List String}
    {e : WalkErr} (h : depWalk idx targets = some (.error e)) :
    WalkErrSpec idx targets e := by
  unfold depWalk at h
  cases hws : walkSeq idx (walkFuel idx targets) targets ⟨[], []⟩ with
  | none => rw [hws] at h; simp at h
  | some r =>
    cases r with
    | ok st => rw [hws] at h; simp at h
    | error e' =>
      rw [hws] at h
      simp at h
      subst h
      exact walkSeq_error_of idx (walkFuel idx targets)
        (walkPkg_error idx (walkFuel idx targets)) targets _ e' hws

/-- Post-order of a successful top-level walk, under a ranking certificate. -/
theorem depWalk_ok_post {idx : RawPackageIndex} {targets : List String}
    {L : List String} (R : List String) (rank : String → Nat)
    (htR : ∀ t ∈ targets, t ∈ R)
    (hRC : ∀ q ∈ R, ∀ d ∈ depsOf idx q, d ∈ R ∧ rank d < rank q)
    (h : depWalk idx targets = some (.ok L)) :
    closedPost idx L := by
  unfold depWalk at h
  cases hws : walkSeq idx (walkFuel idx targets) targets ⟨[], []⟩ with
  | none => rw [hws] at h; simp at h
  | some r =>
    cases r with
    | error e => rw [hws] at h; simp at h
    | ok st =>
      rw [hws] at h
      simp at h
      obtain ⟨hcp, _⟩ := walkSeq_post_of idx R rank (walkFuel idx targets)
        (walkPkg_post idx R rank hRC (walkFuel idx targets)) targets _ _ hws
        htR
        (by
          intro d _ g hg
          obtain ⟨hgs, _⟩ := hg
          simp at hgs)
        (by intro n hn; simp at hn)
        (by intro x hx; simp at hx)
      rw [← h]
      exact hcp

/-- A dependency path: `depPathB idx p rest` holds when consecutive
elements of `p :: rest` are linked by the index's dependency relation. -/
def depPathB (idx : RawPackageIndex) : String → List String → Bool
  | _, [] => true
  | p, q :: rest => decide (q ∈ depsOf idx p) && depPathB idx q rest

theorem depPath_all_mem {idx : RawPackageIndex} {L : List String}
    (hclosed : ∀ x ∈ L, ∀ d ∈ depsOf idx x, d ∈ L) :
    ∀ (rest : List String) (p0 : String), p0 ∈ L → depPathB idx p0 rest = true →
      ∀ x ∈ p0 :: rest, x ∈ L := by
  intro rest
  induction rest with
  | nil =>
    intro p0 hp0 _ x hx
    simp at hx
    rw [hx]
    exact hp0
  | cons q r ih =>
    intro p0 hp0 hpath x hx
    rw [depPathB] at hpath
    simp only [Bool.and_eq_true, decide_eq_true_eq] at hpath
    obtain ⟨hq, hrest⟩ := hpath
    have hqL : q ∈ L := hclosed p0 hp0 q hq
    rcases List.mem_cons.mp hx with hx | hx
    · rw [hx]; exact hp0
    · exact ih q hqL hrest x hx

/-- **C6** (confirmed).  `Walk` over an index whose dependency relation is,
on the packages reachable from the targets, acyclic and complete.

*Encoding.*  "The reachable packages are complete and acyclic" is carried
by a certificate `(R, rank)`: a dependency-closed list of packages
containing the targets, all present, on which `rank` strictly decreases
along dependency edges.  Such a certificate exists exactly when the claim's
hypothesis holds (the reachable set itself is the least such `R`).
Conclusion 1: the walk succeeds with a duplicate-free list `L` that
contains the targets, is dependency-closed, lies inside every certificate
set (so `L` is exactly the reachable set), is all-present, and satisfies
post-order (`closedPost`: every package's dependencies appear strictly
before it).
Conclusion 2: if some reached package is absent — witnessed by a
dependency path from a target whose last element is absent — the walk
fails with the typed `ErrPkgNotFound` naming an absent reachable
package. -/
theorem depWalker_walk_correct (idx : RawPackageIndex) (targets : List String) :
    (∀ (R : List String) (rank : String → Nat),
      (∀ t ∈ targets, t ∈ R) →
      (∀ q ∈ R, ∀ d ∈ depsOf idx q, d ∈ R ∧ rank d < rank q) →
      (∀ q ∈ R, presentB idx q = true) →
      ∃ L, depWalk idx targets = some (.ok L) ∧ L.Nodup ∧
        (∀ t ∈ targets, t ∈ L) ∧
        (∀ x ∈ L, ∀ d ∈ depsOf idx x, d ∈ L) ∧
        (∀ x ∈ L, x ∈ R) ∧
        (∀ x ∈ L, presentB idx x = true) ∧
        closedPost idx L)
    ∧
    (∀ (p0 : String) (rest : List String),
      p0 ∈ targets → depPathB idx p0 rest = true →
      presentB idx ((p0 :: rest).getLast (List.cons_ne_nil p0 rest)) = false →
      ∃ q, presentB idx q = false ∧
        depWalk idx targets = some (.error (.notFound q)) ∧
        (∀ S : String → Prop, (∀ a, S a → ∀ d ∈ depsOf idx a, S d) →
          (∀ t ∈ targets, S t) → S q)) := by
  constructor
  · intro R rank htR hRC hpres
    obtain ⟨r, hr⟩ := depWalk_some idx targets
    cases r with
    | error e =>
      obtain ⟨q, _, hq, hreach⟩ := depWalk_error_facts hr
      have hqR : q ∈ R :=
        hreach (fun x => x ∈ R) (fun a ha d hd => (hRC a ha d hd).1) htR
      rw [hpres q hqR] at hq
      simp at hq
    | ok L =>
      obtain ⟨hnd, hT, hP, hC, hReach⟩ := depWalk_ok_facts hr
      refine ⟨L, hr, hnd, hT, hC, ?_, hP, ?_⟩
      · exact hReach (fun x => x ∈ R) (fun a ha d hd => (hRC a ha d hd).1) htR
      · exact depWalk_ok_post R rank htR hRC hr
  · intro p0 rest hp0 hpath hlast
    obtain ⟨r, hr⟩ := depWalk_some idx targets
    cases r with
    | ok L =>
      obtain ⟨_, hT, hP, hC, _⟩ := depWalk_ok_facts hr
      have hmem : (p0 :: rest).getLast (List.cons_ne_nil p0 rest) ∈ L :=
        depPath_all_mem hC rest p0 (hT p0 hp0) hpath _ (List.getLast_mem _)
      rw [hP _ hmem] at hlast
      simp at hlast
    | error e =>
      obtain ⟨q, he, hq, hreach⟩ := depWalk_error_facts hr
      subst he
      exact ⟨q, hq, hr, hreach⟩

/-- Acyclic, complete two-package index for the C6 witness. -/
def c6Idx : RawPackageIndex :=
  [("a", entOf "pkgs/a/pkgen.yaml" [("a", ["b"])] "default" [] []),
   ("b", entOf "pkgs/b/pkgen.yaml" [("b", [])] "default" [] [])]

/-- Index with a reachable missing package for the C6 witness. -/
def c6MissingIdx : RawPackageIndex :=
  [("a", entOf "pkgs/a/pkgen.yaml" [("a", ["zlib"])] "default" [] [])]

/-- Witness for `depWalker_walk_correct`: both halves applied at concrete
indexes, with the certificate and path hypotheses discharged by `decide`. -/
theorem depWalker_walk_correct_witness :
    (∃ L, depWalk c6Idx ["a"] = some (.ok L) ∧ L.Nodup ∧ closedPost c6Idx L) ∧
    (∃ q, presentB c6MissingIdx q = false ∧
      depWalk c6MissingIdx ["a"] = some (.error (.notFound q))) := by
  constructor
  · obtain ⟨L, h1, h2, _, _, _, _, h7⟩ :=
      (depWalker_walk_correct c6Idx ["a"]).1 ["a", "b"]
        (fun s => if s = "a" then 1 else 0)
        (by decide) (by decide) (by decide)
    exact ⟨L, h1, h2, h7⟩
  · obtain ⟨q, h1, h2, _⟩ :=
      (depWalker_walk_correct c6MissingIdx ["a"]).2 "a" ["zlib"]
        (by decide) (by decide) (by decide)
    exact ⟨q, h1, h2⟩

/-- **C7 amended**.  The walker does not reject cycles: whenever every
package reachable from the targets is present (certificate `R` as in C6,
but with no ranking — cycles allowed), `Walk` terminates and returns,
without error, a duplicate-free list of the reachable packages.  Cycles
are silently traversed via the seen-set; only missing packages produce
errors (and post-order may fail on a cycle, cf. the counterexample). -/
theorem depWalk_cycle_tolerant (idx : RawPackageIndex) (targets : List String)
    (R : List String)
    (htR : ∀ t ∈ targets, t ∈ R)
    (hclosed : ∀ q ∈ R, ∀ d ∈ depsOf idx q, d ∈ R)
    (hpres : ∀ q ∈ R, presentB idx q = true) :
    ∃ L, depWalk idx targets = some (.ok L) ∧ L.Nodup ∧
      (∀ t ∈ targets, t ∈ L) ∧ (∀ x ∈ L, ∀ d ∈ depsOf idx x, d ∈ L) ∧
      (∀ x ∈ L, x ∈ R) := by
  obtain ⟨r, hr⟩ := depWalk_some idx targets
  cases r with
  | error e =>
    obtain ⟨q, _, hq, hreach⟩ := depWalk_error_facts hr
    have hqR : q ∈ R := hreach (fun x => x ∈ R) hclosed htR
    rw [hpres q hqR] at hq
    simp at hq
  | ok L =>
    obtain ⟨hnd, hT, _, hC, hReach⟩ := depWalk_ok_facts hr
    exact ⟨L, hr, hnd, hT, hC, hReach (fun x => x ∈ R) hclosed htR⟩

/-- Witness for `depWalk_cycle_tolerant` at the concrete cycle
`a → b → a`. -/
theorem depWalk_cycle_tolerant_witness :
    ∃ L, depWalk cyclicIdx ["a"] = some (.ok L) ∧ L.Nodup := by
  obtain ⟨L, h1, h2, _⟩ :=
    depWalk_cycle_tolerant cyclicIdx ["a"] ["a", "b"]
      (by decide) (by decide) (by decide)
  exact ⟨L, h1, h2⟩

/-! ## Deduplication (`dedup` in `buildmanager/builder.go`)

Go's `dedup` fills a `map[string]struct{}` and sorts the keys with
`sort.Strings`: the result is the byte-wise-sorted list of distinct
elements.  The embedding removes duplicates and insertion-sorts under the
byte-wise (code-point lexicographic) order; order theory for that
comparison follows. -/

/-- Byte-wise lexicographic `≤` on character lists (Go string order;
code-point order coincides with byte order on these names). -/
def listLeB : List Char → List Char → Bool
  | [], _ => true
  | _ :: _, [] => false
  | a :: as, b :: bs => if a = b then listLeB as bs else decide (a.toNat < b.toNat)

/-- Go string comparison, as used by `sort.Strings`. -/
def strLeB (a b : String) : Bool := listLeB a.data b.data

theorem stringData_append (a b : String) : (a ++ b).data = a.data ++ b.data := rfl

theorem stringEq_of_data {a b : String} (h : a.data = b.data) : a = b := by
  cases a
  cases b
  exact congrArg String.mk h

theorem charEq_of_toNat {a b : Char} (h : a.toNat = b.toNat) : a = b := by
  apply Char.ext
  exact UInt32.ext h

theorem listLeB_total : ∀ a b : List Char, listLeB a b = true ∨ listLeB b a = true := by
  intro a
  induction a with
  | nil => intro b; left; rfl
  | cons x xs ih =>
    intro b
    cases b with
    | nil => right; rfl
    | cons y ys =>
      by_cases hxy : x = y
      · subst hxy
        rcases ih ys with h | h
        · left; simpa [listLeB] using h
        · right; simpa [listLeB] using h
      · have hyx : ¬ y = x := fun hc => hxy hc.symm
        have : x.toNat ≠ y.toNat := fun hc => hxy (charEq_of_toNat hc)
        rcases Nat.lt_or_ge x.toNat y.toNat with h | h
        · left; simp [listLeB, hxy, h]
        · have : y.toNat < x.toNat := by omega
          right; simp [listLeB, hyx, this]

theorem listLeB_antisymm : ∀ a b : List Char,
    listLeB a b = true → listLeB b a = true → a = b := by
  intro a
  induction a with
  | nil =>
    intro b _ h2
    cases b with
    | nil => rfl
    | cons y ys => simp [listLeB] at h2
  | cons x xs ih =>
    intro b h1 h2
    cases b with
    | nil => simp [listLeB] at h1
    | cons y ys =>
      by_cases hxy : x = y
      · subst hxy
        rw [listLeB] at h1 h2
        simp at h1 h2
        rw [ih ys h1 h2]
      · have hyx : ¬ y = x := fun hc => hxy hc.symm
        rw [listLeB] at h1 h2
        simp [hxy] at h1
        simp [hyx] at h2
        omega

theorem listLeB_trans : ∀ a b c : List Char,
    listLeB a b = true → listLeB b c = true → listLeB a c = true := by
  intro a
  induction a with
  | nil => intro b c _ _; rfl
  | cons x xs ih =>
    intro b c h1 h2
    cases b with
    | nil => simp [listLeB] at h1
    | cons y ys =>
      cases c with
      | nil => simp [listLeB] at h2
      | cons z zs =>
        by_cases hxy : x = y
        · subst hxy
          rw [listLeB] at h1
          simp at h1
          by_cases hyz : x = z
          · subst hyz
            rw [listLeB] at h2
            simp at h2
            rw [listLeB]
            simp
            exact ih ys zs h1 h2
          · rw [listLeB] at h2
            simp [hyz] at h2
            rw [listLeB]
            simp [hyz]
            exact h2
        · have h1' : x.toNat < y.toNat := by
            rw [listLeB] at h1
            simpa [hxy] using h1
          by_cases hyz : y = z
          · subst hyz
            rw [listLeB]
            simp [hxy]
            exact h1'
          · have h2' : y.toNat < z.toNat := by
              rw [listLeB] at h2
              simpa [hyz] using h2
            have hxz : ¬ x = z := by
              intro hc
              subst hc
              omega
            rw [listLeB]
            simp [hxz]
            omega

instance : IsAntisymm String (fun a b => strLeB a b = true) :=
  ⟨fun _ _ h1 h2 => stringEq_of_data (listLeB_antisymm _ _ h1 h2)⟩

/-- Insertion into a sorted list under Go string order. -/
def insertSorted (s : String) : List String → List String
  | [] => [s]
  | t :: ts => if strLeB s t then s :: t :: ts else t :: insertSorted s ts

/-- Insertion sort under Go string order (the effect of `sort.Strings`). -/
def sortStrings : List String → List String
  | [] => []
  | s :: rest => insertSorted s (sortStrings rest)

/-- `dedup` from `buildmanager/builder.go`: the sorted list of distinct
elements. -/
def dedup (l : List String) : List String :=
  sortStrings l.dedup

theorem perm_insertSorted (s : String) (l : List String) :
    List.Perm (insertSorted s l) (s :: l) := by
  induction l with
  | nil => exact List.Perm.refl _
  | cons t ts ih =>
    rw [insertSorted]
    by_cases h : strLeB s t = true
    · rw [if_pos h]
    · rw [if_neg h]
      exact List.Perm.trans (List.Perm.cons t ih) (List.Perm.swap s t ts)

theorem perm_sortStrings (l : List String) : List.Perm (sortStrings l) l := by
  induction l with
  | nil => exact List.Perm.refl _
  | cons s rest ih =>
    rw [sortStrings]
    exact List.Perm.trans (perm_insertSorted s (sortStrings rest)) (List.Perm.cons s ih)

theorem sorted_insertSorted (s : String) (l : List String)
    (h : l.Sorted (fun a b => strLeB a b = true)) :
    (insertSorted s l).Sorted (fun a b => strLeB a b = true) := by
  induction l with
  | nil => simp [insertSorted]
  | cons t ts ih =>
    rw [insertSorted]
    rw [List.sorted_cons] at h
    by_cases hle : strLeB s t = true
    · rw [if_pos hle]
      rw [List.sorted_cons]
      refine ⟨?_, List.sorted_cons.mpr h⟩
      intro b hb
      rcases List.mem_cons.mp hb with hb | hb
      · rw [hb]; exact hle
      · exact listLeB_trans _ _ _ hle (h.1 b hb)
    · rw [if_neg hle]
      have hts : strLeB t s = true := by
        rcases listLeB_total s.data t.data with hc | hc
        · exact absurd hc hle
        · exact hc
      rw [List.sorted_cons]
      refine ⟨?_, ih h.2⟩
      intro b hb
      rcases List.mem_cons.mp ((perm_insertSorted s ts).mem_iff.mp hb) with hb | hb
      · rw [hb]; exact hts
      · exact h.1 b hb

theorem sorted_sortStrings (l : List String) :
    (sortStrings l).Sorted (fun a b => strLeB a b = true) := by
  induction l with
  | nil => simp [sortStrings]
  | cons s rest ih => exact sorted_insertSorted s (sortStrings rest) ih

theorem dedup_mem (l : List String) (x : String) : x ∈ dedup l ↔ x ∈ l := by
  unfold dedup
  rw [(perm_sortStrings _).mem_iff]
  exact List.mem_dedup

theorem dedup_nodup (l : List String) : (dedup l).Nodup := by
  unfold dedup
  exact (perm_sortStrings _).nodup_iff.mpr (List.nodup_dedup l)

theorem dedup_sorted (l : List String) :
    (dedup l).Sorted (fun a b => strLeB a b = true) :=
  sorted_sortStrings _

/-- `dedup` is canonical: lists with the same members dedup equally. -/
theorem dedup_eq_of_mem_iff {l₁ l₂ : List String} (h : ∀ x, x ∈ l₁ ↔ x ∈ l₂) :
    dedup l₁ = dedup l₂ := by
  refine List.eq_of_perm_of_sorted ?_ (dedup_sorted l₁) (dedup_sorted l₂)
  refine List.perm_of_nodup_nodup_toFinset_eq (dedup_nodup l₁) (dedup_nodup l₂) ?_
  apply Finset.ext
  intro x
  rw [List.mem_toFinset, List.mem_toFinset, dedup_mem, dedup_mem]
  exact h x

/-! ### String splitting lemmas (for the `strings.Split(v, ":")` round trip) -/

theorem stringMk_data (s : String) : (⟨s.data⟩ : String) = s := by
  cases s
  rfl

theorem stringAppend_assoc (a b c : String) : a ++ b ++ c = a ++ (b ++ c) :=
  stringEq_of_data (by
    rw [stringData_append, stringData_append, stringData_append, stringData_append,
      List.append_assoc])

theorem splitCharList_cons (c a : Char) (as : List Char) :
    splitCharList c (a :: as) =
      if a = c then [] :: splitCharList c as
      else
        match splitCharList c as with
        | [] => [[a]]
        | h :: t => (a :: h) :: t := rfl

theorem splitCharList_not_mem (c : Char) (v : List Char) (hv : c ∉ v) :
    splitCharList c v = [v] := by
  induction v with
  | nil => rfl
  | cons a as ih =>
    simp only [List.mem_cons, not_or] at hv
    obtain ⟨ha, hv'⟩ := hv
    rw [splitCharList_cons, if_neg (fun h => ha h.symm), ih hv']

theorem splitCharList_append (c : Char) (v w : List Char) (hv : c ∉ v) :
    splitCharList c (v ++ c :: w) = v :: splitCharList c w := by
  induction v with
  | nil =>
    rw [List.nil_append, splitCharList_cons, if_pos rfl]
  | cons a as ih =>
    simp only [List.mem_cons, not_or] at hv
    obtain ⟨ha, hv'⟩ := hv
    rw [List.cons_append, splitCharList_cons, if_neg (fun h => ha h.symm), ih hv']

theorem goSplit_concat (v w : String) (hv : ':' ∉ v.data) (hw : ':' ∉ w.data) :
    goSplit (v ++ ":" ++ w) ':' = [v, w] := by
  unfold goSplit
  have hd : (v ++ ":" ++ w).data = v.data ++ ':' :: w.data := by
    rw [stringData_append, stringData_append]
    simp
  rw [hd, splitCharList_append ':' v.data w.data hv, splitCharList_not_mem ':' w.data hw]
  simp [stringMk_data]

/-! ## Build-job dependency lists
(`buildmanager/builder.go`, `buildJob.pkgDeps` and `buildJob.Dependencies`)

`pkgDeps` walks `append(pk.BuildDependencies, "build-meta")` through the
index, dedups, and tags each package with `":" + hostArch` plus
`"-bootstrap"` when the dependency's recipe has a bootstrap builder and the
dependent's `NoBootstrap` map does not exclude it.  `Dependencies` then
replaces each package name by its recipe directory's base name (splitting
the job name on `":"`) and dedups again.  The embedding covers jobs whose
preprocessing succeeded (`bj.err = nil`, `bj.pk ≠ nil`); an index miss in
the map loops would be a Go nil-pointer dereference and is modelled by
empty-string fallbacks — unreachable, since every walker-emitted package is
present. -/

/-- `bld.Pkgen.Builder` for the entry of `v` (empty for a missing entry —
unreachable, see above). -/
def entBuilderOf (idx : RawPackageIndex) (v : String) : String :=
  match assocFind idx v with
  | some ent => ent.pkgen.builder
  | none => ""

/-- `bld.Path` for the entry of `v` (empty for a missing entry —
unreachable, see above). -/
def entPathOf (idx : RawPackageIndex) (v : String) : String :=
  match assocFind idx v with
  | some ent => ent.path
  | none => ""

/-- The job-name tag applied to each walked dependency in `pkgDeps`:
`pkfs[i] += ":" + hostArch` plus the guarded `"-bootstrap"` suffix. -/
def pkgDepTag (idx : RawPackageIndex) (pk : PackageGenerator) (v : String) : String :=
  v ++ ":" ++ pk.hostArch ++
    (if builderIsBootstrap (entBuilderOf idx v) = true ∧ v ∉ pk.noBootstrap
     then "-bootstrap" else "")

/-- The rewrite applied in `Dependencies`: split on `":"` and replace the
package name (`parts[0]`) by its recipe directory's base name, keeping
`parts[1]`. -/
def depDirRename (idx : RawPackageIndex) (v : String) : String :=
  let parts := goSplit v ':'
  pathBase (pathDir (entPathOf idx (parts.headD ""))) ++ ":" ++
    (parts.drop 1).headD ""

/-- The job-name mapping as the C2 claim words it: recipe-directory base
name, colon, host arch, and the guarded `"-bootstrap"` suffix. -/
def claimJobName (idx : RawPackageIndex) (pk : PackageGenerator) (v : String) : String :=
  pathBase (pathDir (entPathOf idx v)) ++ ":" ++ pk.hostArch ++
    (if builderIsBootstrap (entBuilderOf idx v) = true ∧ v ∉ pk.noBootstrap
     then "-bootstrap" else "")

/-- `buildJob.pkgDeps` from `buildmanager/builder.go`. -/
def pkgDeps (idx : RawPackageIndex) (pk : PackageGenerator) :
    Option (Except WalkErr (List String)) :=
  if builderIsBootstrap pk.builder then some (.ok [])
  else
    match depWalk idx (pk.buildDependencies ++ ["build-meta"]) with
    | none => none
    | some (.error e) => some (.error e)
    | some (.ok pkfs) =>
      some (.ok ((dedup pkfs).map (pkgDepTag idx pk)))

/-- `buildJob.Dependencies` from `buildmanager/builder.go`. -/
def dependenciesJob (idx : RawPackageIndex) (pk : PackageGenerator) :
    Option (Except WalkErr (List String)) :=
  if builderIsBootstrap pk.builder then some (.ok [])
  else
    match pkgDeps idx pk with
    | none => none
    | some (.error e) => some (.error e)
    | some (.ok pkfs) =>
      some (.ok (dedup (pkfs.map (depDirRename idx))))

/-- The C2 claim's dependency list, written from the claim's words: the
closure of `buildDependencies ∪ {"base-build"}`, mapped to
`<recipe-dir base name>:<host arch>[-bootstrap]`, deduplicated and
sorted. -/
def dependenciesSpecC2 (idx : RawPackageIndex) (pk : PackageGenerator) :
    Option (Except WalkErr (List String)) :=
  if builderIsBootstrap pk.builder then some (.ok [])
  else
    match depWalk idx (pk.buildDependencies ++ ["base-build"]) with
    | none => none
    | some (.error e) => some (.error e)
    | some (.ok pkfs) =>
      some (.ok (dedup (pkfs.map (claimJobName idx pk))))

/-- The amended C2 dependency list: as the claim, but with the package
`"build-meta"` (which the code actually walks) in place of
`"base-build"`. -/
def dependenciesAmendedC2 (idx : RawPackageIndex) (pk : PackageGenerator) :
    Option (Except WalkErr (List String)) :=
  if builderIsBootstrap pk.builder then some (.ok [])
  else
    match depWalk idx (pk.buildDependencies ++ ["build-meta"]) with
    | none => none
    | some (.error e) => some (.error e)
    | some (.ok pkfs) =>
      some (.ok (dedup (pkfs.map (claimJobName idx pk))))

/-- Index containing both `build-meta` and `base-build` (the C2
counterexample input). -/
def c2Idx : RawPackageIndex :=
  [("build-meta", entOf "pkgs/build-meta/pkgen.yaml" [("build-meta", [])] "default" [] []),
   ("base-build", entOf "pkgs/base-build/pkgen.yaml" [("base-build", [])] "default" [] [])]

/-- A preprocessed non-bootstrap recipe with no explicit build
dependencies (the C2 counterexample job). -/
def c2Pk : PackageGenerator :=
  { packages := [("foo", [])]
    arch := ["x86_64"]
    hostArch := "x86_64"
    buildArch := "x86_64"
    version := "1.0-0"
    sources := []
    script := []
    buildDependencies := []
    builder := "default"
    cross := false
    noBootstrap := [] }

/-- **C2 counterexample** (claim corrected).  The claim says the job's
dependency list is the closure of `buildDependencies` plus the package
`"base-build"`.  The code walks `append(pk.BuildDependencies, "build-meta")`
instead: on the concrete index containing both packages, the code produces
`["build-meta:x86_64"]` while the claim's construction produces
`["base-build:x86_64"]`. -/
theorem dependencies_walk_build_meta_not_base_build :
    dependenciesJob c2Idx c2Pk = some (.ok ["build-meta:x86_64"]) ∧
    dependenciesSpecC2 c2Idx c2Pk = some (.ok ["base-build:x86_64"]) ∧
    ((["build-meta:x86_64"] : List String) == ["base-build:x86_64"]) = false := by
  refine ⟨rfl, rfl, by decide⟩

theorem depDirRename_tag (idx : RawPackageIndex) (pk : PackageGenerator) (v : String)
    (hv : ':' ∉ v.data) (harch : ':' ∉ pk.hostArch.data) :
    depDirRename idx (pkgDepTag idx pk v) = claimJobName idx pk v := by
  unfold depDirRename pkgDepTag claimJobName
  have hsfxc : ':' ∉ (if builderIsBootstrap (entBuilderOf idx v) = true ∧
      v ∉ pk.noBootstrap then "-bootstrap" else "").data := by
    by_cases hc : builderIsBootstrap (entBuilderOf idx v) = true ∧ v ∉ pk.noBootstrap
    · rw [if_pos hc]; decide
    · rw [if_neg hc]; decide
  have hsplit : goSplit (v ++ ":" ++ pk.hostArch ++
      (if builderIsBootstrap (entBuilderOf idx v) = true ∧ v ∉ pk.noBootstrap
       then "-bootstrap" else "")) ':' =
      [v, pk.hostArch ++
        (if builderIsBootstrap (entBuilderOf idx v) = true ∧ v ∉ pk.noBootstrap
         then "-bootstrap" else "")] := by
    rw [stringAppend_assoc]
    refine goSplit_concat v _ hv ?_
    rw [stringData_append]
    intro hc
    rcases List.mem_append.mp hc with hc | hc
    · exact harch hc
    · exact hsfxc hc
  rw [hsplit]
  simp only [List.headD, List.drop]
  conv_rhs => rw [stringAppend_assoc, stringAppend_assoc]
  rw [stringAppend_assoc]

/-- **C2 amended**.  With `"build-meta"` in place of the claim's
`"base-build"`, the claim holds: whenever the walk of
`buildDependencies ++ ["build-meta"]` succeeds and the walked names and the
host arch contain no `':'` (true of all real package names and arches),
`Dependencies` equals the claim's construction — closure, mapped to
recipe-directory-based job names with the guarded `-bootstrap` suffix,
deduplicated and sorted. -/
theorem dependencies_amended_correct (idx : RawPackageIndex) (pk : PackageGenerator)
    (L : List String)
    (hok : depWalk idx (pk.buildDependencies ++ ["build-meta"]) = some (.ok L))
    (hcolon : ∀ v ∈ L, ':' ∉ v.data)
    (harch : ':' ∉ pk.hostArch.data) :
    dependenciesJob idx pk = dependenciesAmendedC2 idx pk := by
  by_cases hb : builderIsBootstrap pk.builder = true
  · unfold dependenciesJob dependenciesAmendedC2
    rw [if_pos hb, if_pos hb]
  · have hpd : pkgDeps idx pk = some (.ok ((dedup L).map (pkgDepTag idx pk))) := by
      unfold pkgDeps
      rw [if_neg hb, hok]
    unfold dependenciesJob dependenciesAmendedC2
    rw [if_neg hb, if_neg hb, hpd, hok]
    dsimp only
    have key : dedup (((dedup L).map (pkgDepTag idx pk)).map (depDirRename idx))
        = dedup (L.map (claimJobName idx pk)) := by
      rw [List.map_map]
      apply dedup_eq_of_mem_iff
      intro x
      simp only [List.mem_map, Function.comp]
      constructor
      · rintro ⟨v, hv, rfl⟩
        have hvL : v ∈ L := (dedup_mem L v).mp hv
        exact ⟨v, hvL, (depDirRename_tag idx pk v (hcolon v hvL) harch).symm⟩
      · rintro ⟨v, hv, rfl⟩
        exact ⟨v, (dedup_mem L v).mpr hv,
          depDirRename_tag idx pk v (hcolon v hv) harch⟩
    rw [key]

/-- Witness for `dependencies_amended_correct` at the concrete C2 index. -/
theorem dependencies_amended_correct_witness :
    dependenciesJob c2Idx c2Pk = dependenciesAmendedC2 c2Idx c2Pk :=
  dependencies_amended_correct c2Idx c2Pk ["build-meta"] rfl (by decide) (by decide)

/-! ## Build hasher (`buildmanager/builder.go`, `buildJob.hash`)

The per-job input digest: a table of `{name, hash}` rows — local `file://`
sources, then (for non-bootstrap jobs) build-dependency artifacts hashed
through the hash cache, then the `"pkgen.yaml"` row — JSON-encoded and
SHA-256'd.  SHA-256, the JSON encoders and the hash cache are abstracted as
function parameters; `buildJobHashEnts` is the table construction,
`buildJobHash` the final digest.  Note the dependency-row name: the Go code
executes `ent.Name += ".tar"` on a never-assigned (zero-value, empty)
`Name` field, so every dependency row is named exactly `".tar"`. -/

/-- A row of the hash table (`{Name string; Hash []byte}` with JSON tags
`name` / `hash`; field order name-then-hash as in the Go struct). -/
structure HashEnt where
  name : String
  hash : List Nat
deriving DecidableEq, Repr

/-- `parseJobName` from `buildmanager/builder.go`: strip a `-bootstrap`
suffix, split on `":"`; fewer than two fields yields
`("fail", "", false)`. -/
def parseJobName (jobname : String) : String × String × Bool :=
  let pr := if goHasSuffix jobname "-bootstrap"
    then (goTrimSuffix jobname "-bootstrap", true)
    else (jobname, false)
  match goSplit pr.1 ':' with
  | a :: b :: _ => (a, b, pr.2)
  | _ => ("fail", "", false)

/-- `hashVFS` from `buildmanager/builder.go`: open the file in the source
tree and SHA-256 its contents. -/
def hashVFS (sha256 : List Nat → List Nat) (tree : String → Option (List Nat))
    (path : String) : Except String (List Nat) :=
  match tree path with
  | none => .error ("open " ++ path ++ ": file does not exist")
  | some contents => .ok (sha256 contents)

/-- The `Error()` text of `ErrPkgNotFound` (errors unify to strings at the
`hash` boundary). -/
def walkErrText : WalkErr → String
  | .notFound p => "package \"" ++ p ++ "\" not found"

/-- The row table built by `buildJob.hash`: `file://`-source rows
(name = basename, hash = SHA-256 of the file resolved against the recipe's
directory), then — unless the builder is bootstrap — one row per resolved
dependency whose hash comes from the hash cache keyed by
`parseJobName` and whose name is `"" + ".tar"`, then the `"pkgen.yaml"`
row hashing the JSON encoding of the preprocessed recipe. -/
def buildJobHashEnts (sha256 : List Nat → List Nat)
    (tree : String → Option (List Nat))
    (hashCache : String → String → Bool → Except String (List Nat))
    (jsonPG : PackageGenerator → List Nat)
    (idx : RawPackageIndex) (pkgname : String) (pk : PackageGenerator) :
    Option (Except String (List HashEnt)) :=
  let sources := pk.sources.filterMap (fun u =>
    if u.scheme = "file"
    then some (pathJoin (pathDir (entPathOf idx pkgname)) (pathClean u.path))
    else none)
  let depRes : Option (Except String (List String)) :=
    if builderIsBootstrap pk.builder then some (.ok [])
    else
      match dependenciesJob idx pk with
      | none => none
      | some (.error e) => some (.error (walkErrText e))
      | some (.ok l) => some (.ok l)
  match depRes with
  | none => none
  | some (.error e) => some (.error e)
  | some (.ok pkhs) =>
    match sources.mapM (fun p =>
        (hashVFS sha256 tree p).map (fun h => HashEnt.mk (pathBase p) h)) with
    | .error e => some (.error e)
    | .ok srcRows =>
      match pkhs.mapM (fun v =>
          (hashCache (parseJobName v).1 (parseJobName v).2.1 (parseJobName v).2.2).map
            (fun h => HashEnt.mk ("" ++ ".tar") h)) with
      | .error e => some (.error e)
      | .ok depRows =>
        some (.ok (srcRows ++ depRows ++ [⟨"pkgen.yaml", sha256 (jsonPG pk)⟩]))

/-- `buildJob.hash`: SHA-256 of the JSON encoding of the row table. -/
def buildJobHash (sha256 : List Nat → List Nat)
    (tree : String → Option (List Nat))
    (hashCache : String → String → Bool → Except String (List Nat))
    (jsonPG : PackageGenerator → List Nat)
    (jsonTable : List HashEnt → List Nat)
    (idx : RawPackageIndex) (pkgname : String) (pk : PackageGenerator) :
    Option (Except String (List Nat)) :=
  match buildJobHashEnts sha256 tree hashCache jsonPG idx pkgname pk with
  | none => none
  | some (.error e) => some (.error e)
  | some (.ok ents) => some (.ok (sha256 (jsonTable ents)))

/-- Toy primitive instances used to evaluate the hasher at the C1 failing
input (the claim is about the table structure, not the primitives). -/
def shaToy : List Nat → List Nat := fun l => 0 :: l

/-- Toy JSON encoding of a recipe. -/
def jsonPGToy : PackageGenerator → List Nat := fun _ => [1]

/-- Toy JSON encoding of the row table (name-length then hash per row). -/
def jsonTableToy : List HashEnt → List Nat :=
  fun ents => (ents.map (fun e => e.name.length :: e.hash)).flatten

/-- Index for the C1 failing input. -/
def c1Idx : RawPackageIndex :=
  [("foo", entOf "pkgs/foo/pkgen.yaml" [("foo", [])] "default" [] []),
   ("build-meta", entOf "pkgs/build-meta/pkgen.yaml" [("build-meta", [])] "default" [] [])]

/-- Preprocessed recipe for the C1 failing input: one `file://` source and
one resolved build dependency (`build-meta:x86_64`). -/
def c1Pk : PackageGenerator :=
  { packages := [("foo", [])]
    arch := ["x86_64"]
    hostArch := "x86_64"
    buildArch := "x86_64"
    version := "1.0-0"
    sources := [⟨"file", "patch.diff"⟩]
    script := []
    buildDependencies := []
    builder := "default"
    cross := false
    noBootstrap := [] }

/-- Source tree for the C1 failing input. -/
def c1Tree : String → Option (List Nat) :=
  fun p => if p = "pkgs/foo/patch.diff" then some [7] else none

/-- Hash cache stub for the C1 failing input. -/
def c1HashCache : String → String → Bool → Except String (List Nat) :=
  fun _ _ _ => .ok [9]

/-- **C1** (code bug).  The claim (and spec §4.5) say each dependency row
is named "package name with `.tar` suffix".  The code's dependency-row loop
reads `ent.Name += ".tar"` on the zero-valued `Name` field, so the row is
named exactly `".tar"` with no package name.  At the failing input (job
`foo` with source `patch.diff` and resolved dependency
`build-meta:x86_64`), the embedded code produces the row table
`[{patch.diff}, {".tar"}, {pkgen.yaml}]` — the dependency row's name is
`".tar"`, not `"build-meta:x86_64.tar"` — and the final digest is SHA-256
of the JSON encoding of that table (the rest of the claim's structure:
source rows from the recipe's directory, hash-cache lookup keyed by
`parseJobName`, final `pkgen.yaml` row, dependency rows skipped for
bootstrap jobs, is as claimed). -/
theorem buildJobHash_dep_row_named_dot_tar :
    buildJobHashEnts shaToy c1Tree c1HashCache jsonPGToy c1Idx "foo" c1Pk
      = some (.ok [⟨"patch.diff", [0, 7]⟩, ⟨".tar", [9]⟩, ⟨"pkgen.yaml", [0, 1]⟩]) ∧
    buildJobHash shaToy c1Tree c1HashCache jsonPGToy jsonTableToy c1Idx "foo" c1Pk
      = some (.ok (shaToy (jsonTableToy
          [⟨"patch.diff", [0, 7]⟩, ⟨".tar", [9]⟩, ⟨"pkgen.yaml", [0, 1]⟩]))) ∧
    ((".tar" == "build-meta:x86_64.tar") = false) := by
  refine ⟨rfl, rfl, by decide⟩

/-! ## Request signing envelope (`pkgen/buildlog/logger.go`, package `request`)

`Sign` sets the request's `PublicKey` field to the PKCS#1 encoding of the
signer's public key, marshals the request, signs the JSON, and marshals a
`Sig` envelope; `DecodeRequest` unmarshals the envelope, parses its
`pubkey` field, verifies the signature, unmarshals the request and checks
`pubkey` against the `PublicKey` embedded in `dat`.  RSA and JSON are
abstracted into a model record.  Note the decisive detail: `Sign` builds
`json.Marshal(Sig{Dat: dat, Signature: sig})` — the `Key` field is never
assigned, so its zero value (`nil`, modelled `[]`) is what the envelope
carries. -/

/-- `request.Request`, with the inner request payload left opaque. -/
structure RequestData where
  apiVersion : Nat
  request : String
  publicKey : List Nat
deriving DecidableEq, Repr

/-- `request.Sig`: the signed envelope `{dat, pubkey, sig}`. -/
structure SigData where
  dat : List Nat
  key : List Nat
  sig : List Nat
deriving DecidableEq, Repr

/-- Abstract model of the RSA and JSON primitives used by `Sign` and
`DecodeRequest`.  `signP`/`verifyP` fold the SHA-256 step of PKCS#1 v1.5
into the primitive (the signer's randomness is irrelevant: only the shape
of the produced envelope matters). -/
structure CryptoModel where
  Priv : Type
  Pub : Type
  pubOf : Priv → Pub
  marshalPub : Pub → List Nat
  parsePub : List Nat → Except String Pub
  signP : Priv → List Nat → List Nat
  verifyP : Pub → List Nat → List Nat → Bool
  encReq : RequestData → List Nat
  decReq : List Nat → Except String RequestData
  encSig : SigData → List Nat
  decSig : List Nat → Except String SigData

/-- `Request.Sign` from `pkgen/buildlog/logger.go`: note `key := []` — the
envelope's `pubkey` field is the marshalled zero value. -/
def signRequest (M : CryptoModel) (r : RequestData) (k : M.Priv) : List Nat :=
  let r1 := { r with publicKey := M.marshalPub (M.pubOf k) }
  let dat := M.encReq r1
  let sg := M.signP k dat
  M.encSig { dat := dat, key := [], sig := sg }

/-- `DecodeRequest` from `pkgen/buildlog/logger.go` (each Go
`if err != nil { return nil, err }` guard is a match on the step). -/
def decodeRequest (M : CryptoModel) (raw : List Nat) : Except String RequestData :=
  match M.decSig raw with
  | .error e => .error e
  | .ok sg =>
    match M.parsePub sg.key with
    | .error e => .error e
    | .ok pub =>
      if M.verifyP pub sg.dat sg.sig then
        match M.decReq sg.dat with
        | .error e => .error e
        | .ok req =>
          if req.publicKey = sg.key then .ok req
          else .error "request key does not match signature key"
      else .error "crypto/rsa: verification error"

/-- **C3** (code bug).  The claim says `DecodeRequest(Sign(r, k))` succeeds
and returns `r` with `PublicKey` set to the PKCS#1 encoding of `k`'s public
key.  `Sign` marshals `Sig{Dat: dat, Signature: sig}` without ever setting
the `Key` field, so the envelope's `pubkey` is `nil`; `DecodeRequest` then
fails at `x509.ParsePKCS1PublicKey(sig.Key)` (an empty DER input never
parses) — and even the later `bytes.Equal(req.PublicKey, sig.Key)` check
could not succeed, since the `PublicKey` inside `dat` is a non-empty PKCS#1
encoding.  For every model whose envelope marshalling round-trips and whose
key parser rejects the empty input, decoding a signed request errors. -/
theorem decodeRequest_sign_fails (M : CryptoModel) (r : RequestData) (k : M.Priv)
    (hrt : ∀ s, M.decSig (M.encSig s) = .ok s)
    (hparse : ∃ e, M.parsePub [] = .error e) :
    ∃ e, decodeRequest M (signRequest M r k) = .error e := by
  obtain ⟨e, he⟩ := hparse
  refine ⟨e, ?_⟩
  unfold decodeRequest signRequest
  rw [hrt]
  dsimp only
  rw [he]

/-- Concrete instance of the crypto model for the witness: length-prefixed
envelope coding, nonempty key marshalling, parse failure on empty input. -/
def toyCrypto : CryptoModel where
  Priv := Nat
  Pub := Nat
  pubOf := id
  marshalPub := fun p => [p + 1]
  parsePub := fun l =>
    match l with
    | [] => .error "asn1: syntax error: sequence truncated"
    | x :: _ => .ok (x - 1)
  signP := fun k d => k :: d
  verifyP := fun p d s => s == p :: d
  encReq := fun r => r.apiVersion :: r.publicKey.length ::
    (r.publicKey ++ r.request.data.map Char.toNat)
  decReq := fun _ => .error "request decoding unused here"
  encSig := fun s => s.dat.length :: (s.dat ++ s.key.length :: (s.key ++ s.sig))
  decSig := fun l =>
    let n := l.headD 0
    let dat := l.tail.take n
    let rest := l.tail.drop n
    let m := rest.headD 0
    .ok ⟨dat, rest.tail.take m, rest.tail.drop m⟩

theorem toyCrypto_decSig_roundtrip (s : SigData) :
    toyCrypto.decSig (toyCrypto.encSig s) = .ok s := by
  obtain ⟨d, k, g⟩ := s
  rw [show toyCrypto.decSig (toyCrypto.encSig ⟨d, k, g⟩) = Except.ok ⟨
      (d ++ k.length :: (k ++ g)).take d.length,
      ((d ++ k.length :: (k ++ g)).drop d.length).tail.take
        (((d ++ k.length :: (k ++ g)).drop d.length).headD 0),
      ((d ++ k.length :: (k ++ g)).drop d.length).tail.drop
        (((d ++ k.length :: (k ++ g)).drop d.length).headD 0)⟩ from rfl]
  rw [List.take_left, List.drop_left, List.headD_cons, List.tail_cons,
    List.take_left, List.drop_left]

/-- Witness for `decodeRequest_sign_fails` at a concrete request and key in
the toy model. -/
theorem decodeRequest_sign_fails_witness :
    ∃ e, decodeRequest toyCrypto (signRequest toyCrypto ⟨1, "status", []⟩ (5 : Nat))
      = .error e :=
  decodeRequest_sign_fails toyCrypto ⟨1, "status", []⟩ (5 : Nat) toyCrypto_decSig_roundtrip
    ⟨"asn1: syntax error: sequence truncated", rfl⟩

/-! ## Log distribution (`cmd/pbuild/log.go`, `LogSession.distributor`)

The distributor goroutine is a sequential event loop (a `select` over the
incoming-line channel and the subscription channel), modelled as a fold
over an event list.  The key primitive is

```
func trySend(line buildlog.Line, ch chan<- buildlog.Line) bool {
    defer recover()
    ch <- line
    return true
}
```

— a *blocking* channel send whose deferred `recover` converts the
closed-channel panic into a `false` return.  A send to an open channel with
no ready receiver therefore waits (backpressuring the distributor and the
producer feeding `ls.in`); only a *closed* channel makes `trySend` return
false and drop the subscriber.  Each event carries the relevant channel
states (sampled once per event); the `blocked` flag records that some send
had to wait. -/

/-- `buildlog.Line`. -/
structure LogLine where
  text : String
  stream : String
deriving DecidableEq, Repr

/-- State of a subscriber's channel at a send attempt. -/
inductive ChanSt where
  | ready
  | busy
  | closed
deriving DecidableEq, Repr

/-- A subscriber channel and the lines delivered to it so far. -/
structure Subscr where
  id : Nat
  recv : List LogLine
deriving DecidableEq, Repr

/-- Distributor state: accumulated buffer, subscriber list (in
registration order), and whether any send has blocked. -/
structure DistSt where
  log : List LogLine
  subs : List Subscr
  blocked : Bool
deriving Repr

/-- Distributor events: an incoming log line (with each subscriber's
channel state at the delivery attempt) or a subscription (with the
newcomer's channel state during buffer replay). -/
inductive DistEv where
  | line (l : LogLine) (st : Nat → ChanSt)
  | sub (id : Nat) (st : ChanSt)

/-- One iteration of the `LogSession.distributor` select loop.

* `line`: append to the buffer; per subscriber, `trySend` delivers to a
  ready receiver, waits for a busy one and then delivers (blocking), and
  returns false only on a closed channel — then the in-place removal
  (`subscribers[:i+copy(...)]`) drops the subscriber, keeping order.
* `sub`: replay the whole buffer (`trySend` per line; a closed channel
  fails every send and the loop `continue`s, so a closed newcomer receives
  nothing), then append the subscriber. -/
def distStep (s : DistSt) : DistEv → DistSt
  | .line l f =>
    { log := s.log ++ [l]
      subs := s.subs.filterMap (fun sb =>
        match f sb.id with
        | .closed => none
        | _ => some { sb with recv := sb.recv ++ [l] })
      blocked := s.blocked || s.subs.any (fun sb => f sb.id == .busy) }
  | .sub i st =>
    { log := s.log
      subs := s.subs ++ [⟨i, if st == .closed then [] else s.log⟩]
      blocked := s.blocked || (st == .busy) }

/-- The distributor run from the fresh session state. -/
def distRun (evs : List DistEv) : DistSt :=
  evs.foldl distStep ⟨[], [], false⟩

/-- The lines of an event list, in arrival order. -/
def linesOf (evs : List DistEv) : List LogLine :=
  evs.filterMap (fun ev => match ev with | .line l _ => some l | _ => none)

/-- No event of `evs` reports subscriber `i`'s channel closed. -/
def aliveForB (i : Nat) : List DistEv → Bool
  | [] => true
  | .line _ f :: r => !(f i == .closed) && aliveForB i r
  | .sub _ _ :: r => aliveForB i r

theorem distFold_log : ∀ (evs : List DistEv) (s : DistSt),
    (List.foldl distStep s evs).log = s.log ++ linesOf evs := by
  intro evs
  induction evs with
  | nil => intro s; simp [linesOf]
  | cons e r ih =>
    intro s
    rw [List.foldl_cons, ih]
    cases e with
    | line l f => simp [distStep, linesOf]
    | sub i st => simp [distStep, linesOf]

/-- A subscriber whose channel never closes survives every event and
receives exactly the subsequent lines, in order. -/
theorem distFold_keeps_sub : ∀ (evs : List DistEv) (s : DistSt) (sb : Subscr),
    sb ∈ s.subs → aliveForB sb.id evs = true →
    ∃ sb', sb' ∈ (List.foldl distStep s evs).subs ∧ sb'.id = sb.id ∧
      sb'.recv = sb.recv ++ linesOf evs := by
  intro evs
  induction evs with
  | nil =>
    intro s sb hmem _
    exact ⟨sb, hmem, rfl, by simp [linesOf]⟩
  | cons e r ih =>
    intro s sb hmem halive
    cases e with
    | line l f =>
      rw [aliveForB] at halive
      simp only [Bool.and_eq_true, Bool.not_eq_true'] at halive
      obtain ⟨hne, halive'⟩ := halive
      have hkeep : (⟨sb.id, sb.recv ++ [l]⟩ : Subscr) ∈ (distStep s (.line l f)).subs := by
        simp only [distStep]
        rw [List.mem_filterMap]
        refine ⟨sb, hmem, ?_⟩
        cases hf : f sb.id with
        | closed => rw [hf] at hne; simp at hne
        | ready => rfl
        | busy => rfl
      obtain ⟨sb', hmem', hid', hrecv'⟩ :=
        ih (distStep s (.line l f)) ⟨sb.id, sb.recv ++ [l]⟩ hkeep halive'
      refine ⟨sb', by rw [List.foldl_cons]; exact hmem', hid', ?_⟩
      rw [hrecv']
      simp [linesOf]
    | sub j st =>
      rw [aliveForB] at halive
      have hkeep : sb ∈ (distStep s (.sub j st)).subs := by
        simp only [distStep]
        exact List.mem_append.mpr (Or.inl hmem)
      obtain ⟨sb', hmem', hid', hrecv'⟩ := ih (distStep s (.sub j st)) sb hkeep halive
      refine ⟨sb', by rw [List.foldl_cons]; exact hmem', hid', ?_⟩
      rw [hrecv']
      simp [linesOf]

/-- The line and events used in the C8 counterexample. -/
def c8Line : LogLine := ⟨"hello", "stdout"⟩

/-- One subscriber attaches (ready), then a line arrives while the
subscriber's open channel is busy (no receiver ready). -/
def c8Events : List DistEv := [.sub 0 .ready, .line c8Line (fun _ => .busy)]

/-- **C8 counterexample** (claim corrected).  The claim says a slow
subscriber is dropped via a non-blocking send and never backpressures the
producer.  `trySend` is a blocking send with a deferred `recover`: on the
concrete run `c8Events`, where the only subscriber's open channel is busy
when the line arrives, the distributor *blocks* (backpressure reaches the
producer through `ls.in`) and the subscriber is *not* dropped — it stays
registered and receives the line. -/
theorem distributor_blocks_on_slow_subscriber :
    (distRun c8Events).blocked = true ∧
    (distRun c8Events).subs = [⟨0, [c8Line]⟩] := by
  exact ⟨rfl, rfl⟩

/-- **C8 amended**.  Every subscriber attached to a live session before a
line `L_k` receives `L_k` *unless its channel has been closed* (closure,
not slowness, is the only drop condition — a slow open channel blocks the
producer instead, cf. the counterexample): on registration the full
accumulated buffer is replayed in order, and afterwards the subscriber
receives every line in arrival order, so a subscriber that attaches after
`evs1` and whose channel never closes ends with exactly
`linesOf evs1 ++ linesOf evs2`. -/
theorem distributor_replay_and_order (evs1 evs2 : List DistEv) (i : Nat) (st : ChanSt)
    (hst : st ≠ ChanSt.closed) (halive : aliveForB i evs2 = true) :
    ∃ sb, sb ∈ (distRun (evs1 ++ .sub i st :: evs2)).subs ∧ sb.id = i ∧
      sb.recv = linesOf evs1 ++ linesOf evs2 := by
  unfold distRun
  rw [List.foldl_append, List.foldl_cons]
  have hlog : (List.foldl distStep ⟨[], [], false⟩ evs1).log = linesOf evs1 := by
    rw [distFold_log]
    simp
  have hstf : (st == ChanSt.closed) = false := by
    cases st with
    | ready => rfl
    | busy => rfl
    | closed => exact absurd rfl hst
  have hnew : (⟨i, (List.foldl distStep ⟨[], [], false⟩ evs1).log⟩ : Subscr) ∈
      (distStep (List.foldl distStep ⟨[], [], false⟩ evs1) (.sub i st)).subs := by
    simp only [distStep, hstf]
    simp
  obtain ⟨sb', hmem', hid', hrecv'⟩ :=
    distFold_keeps_sub evs2 _ ⟨i, (List.foldl distStep ⟨[], [], false⟩ evs1).log⟩
      hnew halive
  exact ⟨sb', hmem', hid', by rw [hrecv', hlog]⟩

/-- Witness for `distributor_replay_and_order`: one buffered line before
subscription, one (busy, blocking, still delivered) line after. -/
theorem distributor_replay_and_order_witness :
    ∃ sb, sb ∈ (distRun ([DistEv.line c8Line (fun _ => ChanSt.ready)] ++
        DistEv.sub 0 ChanSt.ready :: [DistEv.line c8Line (fun _ => ChanSt.busy)])).subs ∧
      sb.id = 0 ∧
      sb.recv = linesOf [DistEv.line c8Line (fun _ => ChanSt.ready)] ++
        linesOf [DistEv.line c8Line (fun _ => ChanSt.busy)] :=
  distributor_replay_and_order [DistEv.line c8Line (fun _ => ChanSt.ready)]
    [DistEv.line c8Line (fun _ => ChanSt.busy)] 0 ChanSt.ready
    (by decide) rfl
